import Mathlib

/-!
# Verification of the musicbox2 generative engine

Shallow embedding of the core combinatorial and stochastic components of the
musicbox2 repository (`src/pcs12.ts`, `src/musicEngine.ts`,
`scripts/generate-rhythm-graph.mjs`, `scripts/generate-pcs-graph.mjs`), with
proofs of the specified properties.

Conventions:
* JavaScript `number` values that the code only ever uses as integers are
  modelled as `Nat`/`Int`; time-valued and probability-valued quantities are
  modelled as `ℚ` (all arithmetic performed on them by the code is exact
  field arithmetic); the transcendental `Math.exp` used by the Hawkes
  intensity is modelled by `Real.exp`.
* `Math.random()` draws are modelled by explicit streams of rationals in
  `[0,1)` consumed in the exact order the source calls `Math.random()`.
* Mutation of `this.<field>` is modelled by explicit state passing.
-/

namespace Musicbox

attribute [local semireducible] Rat.add Rat.sub Rat.mul Rat.inv

/-! ## Pcs12 (src/pcs12.ts)

`class Pcs12` keeps a `bits: boolean[]` of length 12 plus two integer tags.
The constructor takes a JavaScript `Set<number>` (modelled as `Finset ℤ`,
since callers may pass arbitrary integers) and sets `bits[pc]` for each
member `pc` with `0 ≤ pc < 12`.
-/

structure Pcs12 where
  bits : List Bool
  order : ℤ
  transpose : ℤ
deriving DecidableEq, Repr

/-- `new Pcs12(pitchClasses, order, transpose)`: `bits` is a 12-slot array,
`bits[pc] = true` exactly for the in-range members of the input set. -/
def Pcs12.mk12 (pitchClasses : Finset ℤ) (order : ℤ := 0) (transpose : ℤ := 0) :
    Pcs12 :=
  { bits := (List.range 12).map (fun i : ℕ => decide ((i : ℤ) ∈ pitchClasses))
    order := order
    transpose := transpose }

/-- `get(index)`: `this.bits[index] ?? false`. -/
def Pcs12.get (p : Pcs12) (index : ℕ) : Bool :=
  p.bits.getD index false

/-- `getK()`: `this.bits.filter(b => b).length`. -/
def Pcs12.getK (p : Pcs12) : ℕ :=
  (p.bits.filter (fun b => b)).length

/-- `asSet()`: the set of indices `0 ≤ i < 12` with `bits[i]` true
(a JavaScript `Set<number>`, modelled as `Finset ℤ`). -/
def Pcs12.asSet (p : Pcs12) : Finset ℤ :=
  (((List.range 12).filter (fun i => p.get i)).map (fun i : ℕ => (i : ℤ))).toFinset

/-- `asSequence()`: the ascending list of indices `0 ≤ i < 12` with
`bits[i]` true. -/
def Pcs12.asSequence (p : Pcs12) : List ℕ :=
  (List.range 12).filter (fun i => p.get i)

/-- The unordered pairs `(pitches[i], pitches[j])`, `i < j`, in the order the
two nested `for` loops of `getIntervalVector` visit them. -/
def pairsOf : List ℕ → List (ℕ × ℕ)
  | [] => []
  | x :: xs => xs.map (fun y => (x, y)) ++ pairsOf xs

/-- One `iv[interval-1]++` step of `getIntervalVector`, guarded by
`interval > 0 && interval <= 6`. -/
def ivStep (iv : List ℕ) (interval : ℕ) : List ℕ :=
  if 0 < interval ∧ interval ≤ 6 then iv.set (interval - 1) (iv.getD (interval - 1) 0 + 1)
  else iv

/-- `Math.abs(pitches[j] - pitches[i])`, folded to `12 - interval` when above 6. -/
def foldedInterval (a b : ℕ) : ℕ :=
  let interval := ((b : ℤ) - (a : ℤ)).natAbs
  if interval > 6 then 12 - interval else interval

/-- `getIntervalVector()`: 6-slot histogram over all unordered pairs of
members. -/
def Pcs12.getIntervalVector (p : Pcs12) : List ℕ :=
  (pairsOf p.asSequence).foldl (fun iv q => ivStep iv (foldedInterval q.1 q.2))
    (List.replicate 6 0)

/-! ## parseRhythmHex (src/musicEngine.ts lines 301-313 / 2137-2149) -/

/-- `parseInt(c, 16)` on a single character; a non-hex character yields `NaN`,
which the bit tests `(NaN >> bit) & 1` then treat as `0`, so it is modelled
as `0`. -/
def hexCharVal (c : Char) : ℕ :=
  if '0' ≤ c ∧ c ≤ '9' then c.toNat - '0'.toNat
  else if 'a' ≤ c ∧ c ≤ 'f' then c.toNat - 'a'.toNat + 10
  else if 'A' ≤ c ∧ c ≤ 'F' then c.toNat - 'A'.toNat + 10
  else 0

/-- `parseRhythmHex`: each of the 4 hex digits is scanned from bit 3 down to
bit 0; a set bit at position `bit` of digit `i` yields onset
`i * 4 + (3 - bit)`. -/
def parseRhythmHex (hexString : String) : List ℕ :=
  (List.range 4).flatMap (fun i =>
    let hexDigit := hexCharVal (hexString.toList.getD i '\x00')
    ([3, 2, 1, 0] : List ℕ).filterMap (fun bit =>
      if (hexDigit >>> bit) &&& 1 = 1 then some (i * 4 + (3 - bit)) else none))

/-! ## getCoprimes / generateMultiplierPermutation (src/musicEngine.ts 218-238) -/

/-- The `coprimes` accumulator of `getCoprimes(n)`: all `1 ≤ k < n` with
`gcd(k, n) = 1`. -/
def coprimesUpTo (n : ℕ) : List ℕ :=
  (List.range n).filter (fun k => 1 ≤ k ∧ Nat.gcd k n = 1)

/-- `getCoprimes(n)`, with the fallback `[1]` when the list is empty. -/
def getCoprimes (n : ℕ) : List ℕ :=
  if (coprimesUpTo n).length > 0 then coprimesUpTo n else [1]

/-- `generateMultiplierPermutation(n, k)`: the list `[(i * k) % n | i < n]`. -/
def generateMultiplierPermutation (n k : ℕ) : List ℕ :=
  (List.range n).map (fun i => (i * k) % n)

/-! ## Necklace generation: the FKM algorithm (src/pcs12.ts 5-27)

`generateNecklaces(n, k)` runs `subGen(t, p)` over a shared scratch array
`a` of length `n+1` with `a[0] = 0`.  The recursion always terminates at
`t = n + 1`; the embedding makes that explicit by carrying the remaining
depth `fuel = n + 1 - t` as the structural recursion argument, so the base
case `fuel = 0` is exactly the source's `t > n` test.  In-place mutation of
`a` is modelled by value passing: every cell a recursive call reads
(`a[t' - p']` with `1 ≤ t' - p' < t'`) was written by its own call chain,
so copy semantics and in-place semantics agree. -/

def subGenF (n k : ℕ) : ℕ → List ℕ → ℕ → ℕ → List (List ℕ)
  | 0, a, _, p =>
    if n % p = 0 then [(a.take (n + 1)).drop 1] else []
  | fuel + 1, a, t, p =>
    let b0 := a.getD (t - p) 0
    subGenF n k fuel (a.set t b0) (t + 1) p ++
      (List.range' (b0 + 1) (k - (b0 + 1))).flatMap
        (fun j => subGenF n k fuel (a.set t j) (t + 1) t)

/-- `generateNecklaces(n, k)`: `subGen(1, 1)` on the zero-filled array. -/
def generateNecklaces (n k : ℕ) : List (List ℕ) :=
  subGenF n k n (List.replicate (n + 1) 0) 1 1

/-- The same recursion with the `n % p === 0` acceptance filter removed:
all full-length candidate strings the recursion reaches, in order. -/
def subGenAllF (n k : ℕ) : ℕ → List ℕ → ℕ → ℕ → List (List ℕ)
  | 0, a, _, _ => [(a.take (n + 1)).drop 1]
  | fuel + 1, a, t, p =>
    let b0 := a.getD (t - p) 0
    subGenAllF n k fuel (a.set t b0) (t + 1) p ++
      (List.range' (b0 + 1) (k - (b0 + 1))).flatMap
        (fun j => subGenAllF n k fuel (a.set t j) (t + 1) t)

/-- All candidates `generateNecklaces(n, k)` tests for acceptance. -/
def allCandidates (n k : ℕ) : List (List ℕ) :=
  subGenAllF n k n (List.replicate (n + 1) 0) 1 1

/-- `p` is a period of the string `α` (vacuously for `p ≥ |α|`). -/
def IsPeriod (p : ℕ) (α : List ℕ) : Prop :=
  ∀ j, j + p < α.length → α.getD j 0 = α.getD (j + p) 0

instance (p : ℕ) (α : List ℕ) : Decidable (IsPeriod p α) :=
  decidable_of_iff (∀ j < α.length, j + p < α.length → α.getD j 0 = α.getD (j + p) 0)
    ⟨fun h j hj => h j (by omega) hj, fun h j _ hj => h j hj⟩

theorem exists_pos_period (α : List ℕ) : ∃ p, 0 < p ∧ IsPeriod p α :=
  ⟨α.length + 1, by omega, fun j hj => by omega⟩

/-- The minimal period of a string (`1` for the empty string). -/
def minPeriod (α : List ℕ) : ℕ :=
  Nat.find (exists_pos_period α)

/-- Lexicographically minimal among all rotations: the canonicity property
of a necklace. -/
def IsNecklace (w : List ℕ) : Prop :=
  ∀ i < w.length, w = w.rotate i ∨ List.Lex (· < ·) w (w.rotate i)

/-- A Lyndon word: nonempty and strictly lexicographically smaller than
every proper suffix. -/
def IsLyndonList (γ : List ℕ) : Prop :=
  γ ≠ [] ∧ ∀ i, 0 < i → i < γ.length → List.Lex (· < ·) γ (γ.drop i)

/-- `α` is a prefix of the infinite periodic word `γ^∞` (`|γ| = p`). -/
def PowPrefix (γ : List ℕ) (p : ℕ) (α : List ℕ) : Prop :=
  γ.length = p ∧ ∀ j < α.length, α.getD j 0 = γ.getD (j % p) 0

/-- The written prefix `a[1..t-1]` of the scratch array. -/
def prefixOf (a : List ℕ) (t : ℕ) : List ℕ :=
  (a.take t).drop 1

/-- The `subGen(t, p)` loop invariant: the array has length `n+1`, the
indices are in range, and — once something has been written (`t ≥ 2`) — the
written prefix `a[1..t-1]` is a prefix of `γ^∞` for the Lyndon word
`γ = a[1..p]` of length `p ≤ t-1`.  On the initial call (`t = 1`) nothing
has been written and `p = 1`. -/
def SubGenInv (n : ℕ) (a : List ℕ) (t p : ℕ) : Prop :=
  a.length = n + 1 ∧ 1 ≤ t ∧ t ≤ n + 1 ∧ 0 < p ∧
  (2 ≤ t → p ≤ t - 1 ∧ IsLyndonList ((prefixOf a t).take p) ∧
    PowPrefix ((prefixOf a t).take p) p (prefixOf a t)) ∧
  (t = 1 → p = 1)

/-! ## Rhythm relation graph builder (scripts/generate-rhythm-graph.mjs)

`buildRhythmGraph(rhythms4, rhythms8)` ignores its `rhythms4` argument: the
node set is exactly the set of 4-hex halves occurring in some 8-hex record.
The `connectedRhythms` map is built by a fold that, for each record, adds
each half to the other half's neighbour `Set`; the resulting membership is
captured by `cooccurs` below.  The final `nodes` list is the key set sorted,
and `adjacency[i]` is the list of indices of the neighbours of `nodes[i]`,
sorted ascending (the source maps neighbour strings to indices and sorts
numerically, which yields exactly the ascending indices `j` whose node is a
neighbour, since `nodes` has no duplicates).
-/

/-- `split8HexTo4Hex(hex8)`: `slice(0,4)` and `slice(4,8)`. -/
def split8HexTo4Hex (hex8 : String) : String × String :=
  (⟨hex8.toList.take 4⟩, ⟨(hex8.toList.drop 4).take 4⟩)

/-- Membership in `connectedRhythms.get(r)` after the fold: `s` is a
neighbour of `r` exactly when some record's halves are `(r, s)` or `(s, r)`. -/
def cooccurs (rhythms8 : List String) (r s : String) : Bool :=
  rhythms8.any (fun h =>
    split8HexTo4Hex h = (r, s) ∨ split8HexTo4Hex h = (s, r))

/-- The key set of `connectedRhythms`: every string occurring as a half. -/
def connectedKeys (rhythms8 : List String) : List String :=
  ((rhythms8.map split8HexTo4Hex).flatMap (fun p => [p.1, p.2])).dedup

/-- Lexicographic comparison of character lists, as JavaScript compares
strings (by code units; the corpus is ASCII, where code units coincide with
code points). -/
def charListLe : List Char → List Char → Bool
  | [], _ => true
  | _ :: _, [] => false
  | a :: x, b :: y => if a < b then true else if b < a then false else charListLe x y

/-- JavaScript default string comparison for `Array.prototype.sort()`. -/
def strLe (a b : String) : Bool := charListLe a.toList b.toList

/-- Insertion step of the sort used to model `Array.prototype.sort`. -/
def insertBy {α : Type} (le : α → α → Bool) (a : α) : List α → List α
  | [] => [a]
  | b :: l => if le a b then a :: b :: l else b :: insertBy le a l

/-- `Array.prototype.sort(cmp)`, modelled as an insertion sort.  All call
sites sort by a total order (and the only duplicate keys that can occur are
fully equal values), so the result does not depend on the sorting algorithm. -/
def sortBy {α : Type} (le : α → α → Bool) (l : List α) : List α :=
  l.foldr (insertBy le) []

structure RhythmGraph where
  nodes : List String
  adjacency : List (List ℕ)
deriving Repr

/-- `buildRhythmGraph` (the `rhythms4` argument of the source is unused by
the construction and omitted). -/
def buildRhythmGraph (rhythms8 : List String) : RhythmGraph :=
  let nodes := sortBy strLe (connectedKeys rhythms8)
  { nodes := nodes
    adjacency := nodes.map (fun node =>
      (List.range nodes.length).filter (fun j =>
        cooccurs rhythms8 node (nodes.getD j ""))) }

/-! ## Chord (consonant tetrad) graph builder (scripts/generate-pcs-graph.mjs)

The adjacency is built by a double loop over pairs `i < j` of tetrads,
pushing `j` onto `adjacency[i]` and `i` onto `adjacency[j]` whenever
`pcsRelationAllows` accepts the pair.  Because the outer index ascends,
`adjacency[x]` ends up holding first the ascending related `i < x`, then the
ascending related `j > x`.
-/

/-- `equals(other)`: pointwise comparison of the 12 bit slots. -/
def Pcs12.equalsB (a b : Pcs12) : Bool :=
  (List.range 12).all (fun i => a.get i == b.get i)

/-- `pcsDifferent(a, b)`: `!a.equals(b)`. -/
def pcsDifferent (a b : Pcs12) : Bool := !a.equalsB b

/-- `pcsShareCommonNotes(a, b, minCommon)` (generate-pcs-graph.mjs): `false`
when the cardinalities differ, otherwise whether at least `minCommon`
pitch classes are shared (the source's early-exit counting loop). -/
def pcsShareCommonNotes (a b : Pcs12) (minCommon : ℕ) : Bool :=
  if a.getK ≠ b.getK then false
  else decide (minCommon ≤ (a.asSet ∩ b.asSet).card)

/-- `pcsRelationAllows(a, b)` (generate-pcs-graph.mjs): distinct content and
at least 3 common pitch classes. -/
def pcsRelationAllows (a b : Pcs12) : Bool :=
  if !pcsDifferent a b then false else pcsShareCommonNotes a b 3

/-- The adjacency produced by the tetrad double loop. -/
def chordAdjacency (tetrads : List Pcs12) : List (List ℕ) :=
  (List.range tetrads.length).map (fun x =>
    ((List.range tetrads.length).filter (fun i =>
        i < x ∧ pcsRelationAllows (tetrads.getD i ⟨[], 0, 0⟩) (tetrads.getD x ⟨[], 0, 0⟩))) ++
    ((List.range tetrads.length).filter (fun j =>
        x < j ∧ pcsRelationAllows (tetrads.getD x ⟨[], 0, 0⟩) (tetrads.getD j ⟨[], 0, 0⟩))))

/-! ## Bebop scale machinery (src/musicEngine.ts 1-70 of the class section)

JavaScript's `%` is the truncating remainder (sign of the dividend), which is
`Int.tmod`; the source's `((x % 12) + 12) % 12` idiom therefore normalises to
`0..11`.
-/

/-- `BEBOP_SCALE_BASE`: pitches of 8-23.00. -/
def BEBOP_SCALE_BASE : List ℕ := [0, 1, 2, 3, 5, 7, 8, 10]

/-- `getBebopScale(rotation)`: the base scale transposed by `rotation` and
sorted ascending (`.sort((a, b) => a - b)`). -/
def getBebopScale (rotation : ℕ) : List ℕ :=
  sortBy (fun a b => a ≤ b) (BEBOP_SCALE_BASE.map (fun pc => (pc + rotation + 12) % 12))

/-- `getKeyFromRotation(rotation)`: `((rotation - 4) % 12 + 12) % 12`. -/
def getKeyFromRotation (rotation : ℕ) : ℕ :=
  (((((rotation : ℤ) - 4).tmod 12) + 12).tmod 12).toNat

/-- `Pcs12.rotate(t)`: transpose every member by `t` (the source computes
`(i + t + 120) % 12`, nonnegative for every call site, where `t ≥ -11`). -/
def Pcs12.rotate (p : Pcs12) (t : ℤ) : Pcs12 :=
  Pcs12.mk12
    ((((List.range 12).filter (fun i => p.get i)).map
      (fun i : ℕ => ((i : ℤ) + t + 120).tmod 12)).toFinset)
    p.order ((p.transpose + t + 12).tmod 12)

/-- The recursive `combine(start, current)` of `generateSubsets`, re-indexed
by the still-available suffix of the scale: extending `current` with each
later element in ascending position order is the same as taking, at each
step, either the next element or skipping it (include-first), which keeps
the source's enumeration order.  A completed subset is kept only when its
interval vector has no minor seconds (`iv[0] === 0`). -/
def subsetLeaf (current : List ℕ) : List Pcs12 :=
  let pcs := Pcs12.mk12 ((current.map (fun x : ℕ => (x : ℤ))).toFinset)
  if pcs.getIntervalVector.getD 0 0 = 0 then [pcs] else []

def combine (size : ℕ) (current : List ℕ) : List ℕ → List Pcs12
  | [] => if current.length = size then subsetLeaf current else []
  | x :: rest =>
    if current.length = size then subsetLeaf current
    else combine size (current ++ [x]) rest ++ combine size current rest

/-- `generateSubsets(scale, size)`. -/
def generateSubsets (scale : List ℕ) (size : ℕ) : List Pcs12 :=
  combine size [] scale

/-- The sequence-comparison loop of `comparePcsByKey`: first index where the
sequences differ decides, otherwise the length difference does. -/
def compareSeqs : List ℕ → List ℕ → ℤ
  | a :: x, b :: y => if a ≠ b then (a : ℤ) - b else compareSeqs x y
  | x, y => (x.length : ℤ) - y.length

/-- `comparePcsByKey(a, b, key)`: compare the key-relative rotations. -/
def comparePcsByKey (a b : Pcs12) (key : ℕ) : ℤ :=
  compareSeqs ((a.rotate (-(key : ℤ))).asSequence) ((b.rotate (-(key : ℤ))).asSequence)

/-! ## Random streams and the rhythm-graph walk

`Math.random()` draws are modelled as an explicit stream (list) of rationals
in `[0,1)`, consumed in the order the source draws them; an exhausted stream
yields `0`.  `Math.floor(Math.random() * n)` becomes `⌊r * n⌋`.
-/

abbrev Rng := List ℚ

/-- One `Math.random()` draw. -/
def nextRand : Rng → ℚ × Rng
  | [] => (0, [])
  | r :: rest => (r, rest)

/-- `Math.floor(r * n)` as a natural number (for `r ∈ [0,1)`). -/
def randIndex (r : ℚ) (n : ℕ) : ℕ :=
  (⌊r * (n : ℚ)⌋).toNat

/-- The loop body of `RhythmRelationGraph.randomWalk`: push the current
node, then move to a random neighbour, or to a random node if the current
node has no neighbours. -/
def walkSteps (nodes : List String) (adjacency : List (List ℕ)) :
    ℕ → ℕ → Rng → List String × ℕ × Rng
  | 0, cur, rng => ([], cur, rng)
  | len + 1, cur, rng =>
    let node := nodes.getD cur ""
    let neighbors := adjacency.getD cur []
    let step := nextRand rng
    let cur' := if neighbors.length > 0
      then neighbors.getD (randIndex step.1 neighbors.length) 0
      else randIndex step.1 nodes.length
    let rest := walkSteps nodes adjacency len cur' step.2
    (node :: rest.1, rest.2.1, rest.2.2)

/-- `randomWalk(length)`: returns the walk, the updated cursor and the
remaining stream; the empty graph returns an empty walk. -/
def randomWalk (nodes : List String) (adjacency : List (List ℕ))
    (cursor : ℕ) (length : ℕ) (rng : Rng) : List String × ℕ × Rng :=
  if nodes.length = 0 then ([], cursor, rng)
  else walkSteps nodes adjacency length cursor rng

/-! ## generateHyperbar (src/musicEngine.ts 563-625 / 2410-2472)

The mutable engine fields touched by the offline renderer and the hyperbar
generator, as one state record.
-/

structure EngineState where
  bpm : ℚ
  hawkesBaseRate : ℚ
  hawkesExcitation : ℚ
  maxNoteDuration : String
  currentScaleRotation : ℕ
  currentScale : List ℕ
  currentKey : ℕ
  currentBarIndex : ℤ
  currentOctave : ℤ
  rhythmNodes : List String
  rhythmAdjacency : List (List ℕ)
  rhythmCursor : ℕ
  currentHyperbarRhythms : List String
  currentHyperbarChords : List Pcs12
  activePitchClasses : List ℕ
  currentRhythmOnsets : List ℚ
deriving DecidableEq, Repr

/-- The chord-picking loop: one subset list per size; a draw from each
nonempty list, the full scale as fallback for an empty one. -/
def pickFourChords (scale : List ℕ) : List (List Pcs12) → Rng → List Pcs12 × Rng
  | [], rng => ([], rng)
  | subsets :: rest, rng =>
    if subsets.length > 0 then
      let step := nextRand rng
      let c := subsets.getD (randIndex step.1 subsets.length) ⟨[], 0, 0⟩
      let more := pickFourChords scale rest step.2
      (c :: more.1, more.2)
    else
      let more := pickFourChords scale rest rng
      (Pcs12.mk12 ((scale.map (fun x : ℕ => (x : ℤ))).toFinset) :: more.1, more.2)

/-- The chord half of `generateHyperbar`: pick the four subset chords, sort
them by the key-relative order, reorder by `[0,2,3,1]` and lay each out over
two consecutive bars. -/
def generateHyperbarChords (scale : List ℕ) (key : ℕ) (rng : Rng) :
    List Pcs12 × Rng :=
  let allSubsets := ([3, 4, 4, 5] : List ℕ).map (generateSubsets scale)
  let pick := pickFourChords scale allSubsets rng
  let sorted := sortBy (fun a b => comparePcsByKey a b key ≤ 0) pick.1
  let d : Pcs12 := ⟨[], 0, 0⟩
  let chordSequence := [sorted.getD 0 d, sorted.getD 2 d, sorted.getD 3 d, sorted.getD 1 d]
  ([chordSequence.getD 0 d, chordSequence.getD 0 d,
    chordSequence.getD 1 d, chordSequence.getD 1 d,
    chordSequence.getD 2 d, chordSequence.getD 2 d,
    chordSequence.getD 3 d, chordSequence.getD 3 d], rng)

/-- The rhythm half of `generateHyperbar`: a 5-step graph walk arranged as
the arch `[r3,r2,r1,r0,r1,r2,r3,r4]`, with the degraded fallback
`Array(8).fill(walkRhythms[0] || '8000')` when the walk is too short. -/
def generateHyperbarRhythms (walkRhythms : List String) : List String :=
  if walkRhythms.length < 5 then
    List.replicate 8 (if walkRhythms.getD 0 "" = "" then "8000" else walkRhythms.getD 0 "")
  else
    [walkRhythms.getD 3 "", walkRhythms.getD 2 "", walkRhythms.getD 1 "",
     walkRhythms.getD 0 "", walkRhythms.getD 1 "", walkRhythms.getD 2 "",
     walkRhythms.getD 3 "", walkRhythms.getD 4 ""]

/-- `generateHyperbar()`: rotate the bebop scale a fifth up or down, walk the
rhythm graph, pick/sort/lay out the four chords, reset the bar index. -/
def generateHyperbar (s : EngineState) (rng : Rng) : EngineState × Rng :=
  let dirStep := nextRand rng
  let direction : ℤ := if dirStep.1 < 1/2 then 7 else -7
  let rotation := (((((s.currentScaleRotation : ℤ) + direction).tmod 12) + 12).tmod 12).toNat
  let scale := getBebopScale rotation
  let key := getKeyFromRotation rotation
  let walk := randomWalk s.rhythmNodes s.rhythmAdjacency s.rhythmCursor 5 dirStep.2
  let rhythms := generateHyperbarRhythms walk.1
  let chords := generateHyperbarChords scale key walk.2.2
  ({ s with
      currentScaleRotation := rotation
      currentScale := scale
      currentKey := key
      rhythmCursor := walk.2.1
      currentHyperbarRhythms := rhythms
      currentHyperbarChords := chords.1
      currentBarIndex := -1 }, chords.2)

/-- A concrete engine start state: a one-node rhythm graph with no edges and
default-ish musical parameters. -/
def exampleState : EngineState := {
  bpm := 45, hawkesBaseRate := 1/2, hawkesExcitation := 1, maxNoteDuration := "1/4",
  currentScaleRotation := 0, currentScale := BEBOP_SCALE_BASE, currentKey := 0,
  currentBarIndex := -1, currentOctave := 5,
  rhythmNodes := ["0000"], rhythmAdjacency := [[]], rhythmCursor := 0,
  currentHyperbarRhythms := [], currentHyperbarChords := [], activePitchClasses := [],
  currentRhythmOnsets := [] }

/-! ## Offline rendering: generateNoteEvents (src/musicEngine.ts 3083-3195)

The Hawkes-engine variant of `generateNoteEvents` (used by `renderWav` and
`renderMidi`).  Timing quantities are exact rationals.  Its note events
carry `{time, frequency, duration, midi, velocity}`; `frequency` is
`midiToFreq(midi) = 440·2^((midi-69)/12)`, a pure function of the `midi`
field with no effect on engine state, so events are modelled by the
remaining four fields.
-/

def BARS_PER_HYPERBAR : ℕ := 8
def OCTAVE_MIN : ℤ := 4
def OCTAVE_MAX : ℤ := 7

/-- `get sixteenthSeconds()`: `(60 / bpm) / 4`. -/
def sixteenthSeconds (s : EngineState) : ℚ := (60 / s.bpm) / 4

/-- `get barSeconds()`: `4 * (60 / bpm)`. -/
def barSeconds (s : EngineState) : ℚ := 4 * (60 / s.bpm)

/-- `get hyperbarSeconds()`: `barSeconds * BARS_PER_HYPERBAR`. -/
def hyperbarSeconds (s : EngineState) : ℚ := barSeconds s * (BARS_PER_HYPERBAR : ℚ)

/-- `musicalDurationToSeconds(duration, bpm)`: the named-duration table with
dotted (`D`, ×1.5) and triplet (`T`, ×2/3) modifiers and the `1/4` default. -/
def musicalDurationToSeconds (duration : String) (bpm : ℚ) : ℚ :=
  let beatSeconds := 60 / bpm
  let wholeNote := beatSeconds * 4
  let chars := duration.toList
  let base : String :=
    if chars.getLast? = some 'T' ∨ chars.getLast? = some 'D' then ⟨chars.dropLast⟩
    else duration
  let modifier := chars.getLast?.getD '\x00'
  let value :=
    if base = "2/1" then wholeNote * 2
    else if base = "1/1" then wholeNote
    else if base = "1/2" then wholeNote / 2
    else if base = "1/4" then wholeNote / 4
    else if base = "1/8" then wholeNote / 8
    else if base = "1/16" then wholeNote / 16
    else if base = "1/32" then wholeNote / 32
    else wholeNote / 4
  if modifier = 'T' then value * (2/3)
  else if modifier = 'D' then value * (3/2)
  else value

structure NoteEvent where
  time : ℚ
  duration : ℚ
  midi : ℤ
  velocity : ℕ
deriving DecidableEq, Repr

/-- `addNoteEvent(events, noteTime)`: pick a uniform pitch class from the
active chord, take a clamped ±1 octave step, push one event; a no-op (no
draws) when the active chord is empty. -/
def addNoteEvent (s : EngineState) (events : List NoteEvent) (noteTime : ℚ)
    (rng : Rng) : List NoteEvent × EngineState × Rng :=
  if s.activePitchClasses.length = 0 then (events, s, rng)
  else
    let t1 := nextRand rng
    let pitchClass := s.activePitchClasses.getD
      (randIndex t1.1 s.activePitchClasses.length) 0
    let t2 := nextRand t1.2
    let octaveChange : ℤ := ⌊t2.1 * 3⌋ - 1
    let newOctave := max OCTAVE_MIN (min OCTAVE_MAX (s.currentOctave + octaveChange))
    let midi := newOctave * 12 + (pitchClass : ℤ)
    let maxDurationSeconds := musicalDurationToSeconds s.maxNoteDuration s.bpm
    let t3 := nextRand t2.2
    let duration := maxDurationSeconds * (3/10 + t3.1 * (7/10))
    (events ++ [{ time := noteTime, duration := duration, midi := midi, velocity := 70 }],
     { s with currentOctave := newOctave }, t3.2)

/-- The excitation cluster loop: each test draws one random; the body adds a
clustered note a random fraction of a sixteenth later; `remaining` is
`3 - clusterCount`, so at most 3 clustered notes are added. -/
def clusterNotes : ℕ → EngineState → List NoteEvent → ℚ → Rng →
    List NoteEvent × EngineState × Rng
  | 0, s, events, _, rng =>
    let t := nextRand rng
    (events, s, t.2)
  | remaining + 1, s, events, clusterTime, rng =>
    let t := nextRand rng
    if t.1 < s.hawkesExcitation * (3/10) then
      let t2 := nextRand t.2
      let clusterTime' := clusterTime + sixteenthSeconds s * (1/10 + t2.1 * (3/10))
      let r := addNoteEvent s events clusterTime' t2.2
      clusterNotes remaining r.2.1 r.1 clusterTime' r.2.2
    else (events, s, t.2)

/-- The `for (const onsetTime of this.currentRhythmOnsets)` loop: with
probability `min(0.9, avgNotesPerBeat·0.3)` play a note near the onset
(jittered by ±10% of a sixteenth), then possibly a cluster.
`avgNotesPerBeat` is `hawkesBaseRate`, which the run never mutates. -/
def onsetNotes : List ℚ → EngineState → List NoteEvent → Rng →
    List NoteEvent × EngineState × Rng
  | [], s, events, rng => (events, s, rng)
  | onsetTime :: rest, s, events, rng =>
    let playProbability := min (9/10) (s.hawkesBaseRate * (3/10))
    let t := nextRand rng
    if t.1 < playProbability then
      let t2 := nextRand t.2
      let timeOffset := (t2.1 - 1/2) * sixteenthSeconds s * (2/10)
      let noteTime := onsetTime + timeOffset
      let r1 := addNoteEvent s events noteTime t2.2
      let r2 := clusterNotes 3 r1.2.1 r1.1 noteTime r1.2.2
      onsetNotes rest r2.2.1 r2.1 r2.2.2
    else onsetNotes rest s events t.2

/-- The `extraNotes` loop: uniformly-timed additional notes in the bar. -/
def extraNotesLoop : ℕ → ℚ → EngineState → List NoteEvent → Rng →
    List NoteEvent × EngineState × Rng
  | 0, _, s, events, rng => (events, s, rng)
  | n + 1, barStartTime, s, events, rng =>
    let t := nextRand rng
    let randomTime := barStartTime + t.1 * barSeconds s
    let r := addNoteEvent s events randomTime t.2
    extraNotesLoop n barStartTime r.2.1 r.1 r.2.2

/-- One iteration of the bar loop: refresh bar index, active chord and
rhythm onsets; skip the bar when no chord is active; otherwise the onset
loop, then `Math.floor(expected + (rand < frac ? 1 : 0))` extra notes. -/
def processBar (hyperbarStart : ℚ) (barIndex : ℕ) (s : EngineState)
    (events : List NoteEvent) (rng : Rng) : List NoteEvent × EngineState × Rng :=
  let barStartTime := hyperbarStart + (barIndex : ℚ) * barSeconds s
  let s1 :=
    if barIndex < s.currentHyperbarChords.length then
      let chord := s.currentHyperbarChords.getD barIndex ⟨[], 0, 0⟩
      { s with
          currentBarIndex := (barIndex : ℤ)
          activePitchClasses := chord.asSequence
          currentRhythmOnsets :=
            (parseRhythmHex (s.currentHyperbarRhythms.getD barIndex "")).map
              (fun onset => barStartTime + (onset : ℚ) * sixteenthSeconds s) }
    else s
  if s1.activePitchClasses.length = 0 then (events, s1, rng)
  else
    let r1 := onsetNotes s1.currentRhythmOnsets s1 events rng
    let expected := s.hawkesBaseRate * 4 * (3/10)
    let t := nextRand r1.2.2
    let frac := expected - (⌊expected⌋ : ℚ)
    let extra := (⌊expected + (if t.1 < frac then (1 : ℚ) else 0)⌋).toNat
    extraNotesLoop extra barStartTime r1.2.1 r1.1 t.2

/-- The bar loop over `barIndex = 0..7`. -/
def processBars (hyperbarStart : ℚ) : List ℕ → EngineState → List NoteEvent →
    Rng → List NoteEvent × EngineState × Rng
  | [], s, events, rng => (events, s, rng)
  | b :: rest, s, events, rng =>
    let r := processBar hyperbarStart b s events rng
    processBars hyperbarStart rest r.2.1 r.1 r.2.2

/-- The hyperbar loop: `hyperbarStart = h * hyperbarSeconds`, regenerate the
hyperbar, process its 8 bars. -/
def hyperbarLoop : ℕ → ℕ → EngineState → List NoteEvent → Rng →
    List NoteEvent × EngineState × Rng
  | 0, _, s, events, rng => (events, s, rng)
  | n + 1, h, s, events, rng =>
    let hyperbarStart := (h : ℚ) * hyperbarSeconds s
    let g := generateHyperbar s rng
    let r := processBars hyperbarStart (List.range BARS_PER_HYPERBAR) g.1 events g.2
    hyperbarLoop n (h + 1) r.2.1 r.1 r.2.2

/-- `generateNoteEvents(numHyperbars)`: save six fields, reset them to a
fresh random rendering state, run the hyperbar loop, restore the six saved
fields, and return the time-sorted events.  (The hyperbar chord/rhythm
arrays, the active pitch classes and the rhythm-graph cursor are *not* in
the saved set.) -/
def generateNoteEvents (numHyperbars : ℕ) (s : EngineState) (rng : Rng) :
    List NoteEvent × EngineState × Rng :=
  let savedScaleRotation := s.currentScaleRotation
  let savedScale := s.currentScale
  let savedKey := s.currentKey
  let savedBarIndex := s.currentBarIndex
  let savedOctave := s.currentOctave
  let savedRhythmOnsets := s.currentRhythmOnsets
  let t := nextRand rng
  let rotation := randIndex t.1 12
  let s1 := { s with
      currentScaleRotation := rotation
      currentScale := getBebopScale rotation
      currentKey := getKeyFromRotation rotation
      currentBarIndex := -1
      currentOctave := 5 }
  let r := hyperbarLoop numHyperbars 0 s1 [] t.2
  let restored := { r.2.1 with
      currentScaleRotation := savedScaleRotation
      currentScale := savedScale
      currentKey := savedKey
      currentBarIndex := savedBarIndex
      currentOctave := savedOctave
      currentRhythmOnsets := savedRhythmOnsets }
  (sortBy (fun a b => a.time ≤ b.time) r.1, restored, r.2.2)

/-! ## sampleNextHawkesEventTime (src/musicEngine.ts 2536-2563)

The thinning loop.  Each iteration draws `u1` and advances the candidate by
`-log(u1)/maxIntensity`, then draws `u2` and accepts when
`u2 ≤ λ(t)/maxIntensity`.  The two draws of an iteration are abstracted into
the pair (interarrival, accept-flag) — every concrete pair of draws yields
some such pair, and the claims quantify over all of them — and the final
`Math.random()` of the fallback expression is the parameter `u`.  Exact
rational arithmetic stands in for the float arithmetic of the source. -/

/-- The synthesized fallback time:
`currentTime + 0.5/barsPerSecond + u * (0.5/barsPerSecond)`. -/
def hawkesFallback (barsPerSecond currentTime u : ℚ) : ℚ :=
  currentTime + (1/2) / barsPerSecond + u * ((1/2) / barsPerSecond)

/-- The `while (true)` thinning loop: advance the candidate; return it if
accepted; otherwise return the fallback if the candidate has run more than
one bar past `currentTime`; otherwise continue.  `none` only when the given
step list runs out (the source would keep looping and drawing). -/
def sampleLoop (barsPerSecond currentTime u : ℚ) :
    List (ℚ × Bool) → ℚ → Option ℚ
  | [], _ => none
  | step :: rest, t =>
    let t' := t + step.1
    if step.2 then some t'
    else if t' > currentTime + 1 / barsPerSecond then
      some (hawkesFallback barsPerSecond currentTime u)
    else sampleLoop barsPerSecond currentTime u rest t'

/-- `sampleNextHawkesEventTime(currentTime)` under an abstract draw stream. -/
def sampleNextHawkesEventTime (barsPerSecond currentTime u : ℚ)
    (steps : List (ℚ × Bool)) : Option ℚ :=
  sampleLoop barsPerSecond currentTime u steps currentTime

/-! ## calculateHawkesIntensity (src/musicEngine.ts 2501-2531)

The intensity is real-valued (`Math.exp`).  The state fields it reads —
`bpm`, `hawkesBaseRate`, `hawkesExcitation`, `hawkesDecay`,
`hawkesEventTimes`, `currentRhythmOnsets` — are collected in one record at
real type.  The source also *stores* the pruned event list back into
`this.hawkesEventTimes`; since pruning at a later time subsumes pruning at
an earlier one, recomputing the filter at each call is equivalent for the
nondecreasing call times of the scheduler, so the model is a pure function
of the record and the time. -/

structure HawkesParams where
  bpm : ℝ
  baseRate : ℝ
  excitation : ℝ
  decay : ℝ
  eventTimes : List ℝ
  rhythmOnsets : List ℝ

/-- `barsPerSecond = bpm / 60 / BEATS_PER_BAR` with `BEATS_PER_BAR = 4`. -/
noncomputable def hBarsPerSecond (h : HawkesParams) : ℝ := h.bpm / 60 / 4

/-- `sixteenthSeconds = (60 / bpm) / 4`. -/
noncomputable def hSixteenthSeconds (h : HawkesParams) : ℝ := (60 / h.bpm) / 4

/-- The pruning step: keep events newer than `currentTime - 1 bar`. -/
noncomputable def prunedEvents (h : HawkesParams) (t : ℝ) : List ℝ :=
  h.eventTimes.filter (fun e => decide (t - 1 / hBarsPerSecond h < e))

/-- The excitation sum over the pruned history. -/
noncomputable def excitationSum (h : HawkesParams) (t : ℝ) : ℝ :=
  ((prunedEvents h t).map (fun e =>
    h.excitation * hBarsPerSecond h *
      Real.exp (-(h.decay * hBarsPerSecond h) * (t - e)))).sum

/-- The rhythm-proximity boost: a decaying bonus for each onset strictly
ahead of `t` by less than an eighth note. -/
noncomputable def rhythmBoost (h : HawkesParams) (t : ℝ) : ℝ :=
  (h.rhythmOnsets.map (fun o =>
    if 0 < o - t ∧ o - t < hSixteenthSeconds h * 2 then
      3 * (h.bpm / 60) * Real.exp (-(o - t) / (hSixteenthSeconds h * (1/2)))
    else 0)).sum

/-- `calculateHawkesIntensity(currentTime)`. -/
noncomputable def calculateHawkesIntensity (h : HawkesParams) (t : ℝ) : ℝ :=
  h.baseRate * hBarsPerSecond h + excitationSum h t + rhythmBoost h t

/-! ### Helper lemmas for the interval-vector sum -/

theorem pairsOf_length_sq (l : List ℕ) :
    2 * (pairsOf l).length + l.length = l.length * l.length := by
  induction l with
  | nil => rfl
  | cons x xs ih =>
    simp only [pairsOf, List.length_append, List.length_map, List.length_cons]
    rw [show (xs.length + 1) * (xs.length + 1)
        = xs.length * xs.length + 2 * xs.length + 1 by ring, ← ih]
    ring

theorem pairsOf_length_twice (l : List ℕ) :
    2 * (pairsOf l).length = l.length * (l.length - 1) := by
  cases l with
  | nil => rfl
  | cons x xs =>
    have h := pairsOf_length_sq (x :: xs)
    have h2 : (x :: xs).length * (x :: xs).length
        = (x :: xs).length * ((x :: xs).length - 1) + (x :: xs).length := by
      simp only [List.length_cons, Nat.add_sub_cancel]
      ring
    rw [h2] at h
    exact Nat.add_right_cancel h

theorem sum_set_incr (l : List ℕ) (i : ℕ) (h : i < l.length) :
    (l.set i (l.getD i 0 + 1)).sum = l.sum + 1 := by
  induction l generalizing i with
  | nil => simp at h
  | cons x xs ih =>
    cases i with
    | zero => simp [List.getD]; omega
    | succ j =>
      simp only [List.set, List.sum_cons, List.getD_cons_succ]
      rw [ih j (by simpa using h)]
      omega

theorem ivStep_sum (iv : List ℕ) (d : ℕ) (hlen : 6 ≤ iv.length)
    (hd : 1 ≤ d ∧ d ≤ 6) : (ivStep iv d).sum = iv.sum + 1 := by
  unfold ivStep
  rw [if_pos ⟨hd.1, hd.2⟩]
  exact sum_set_incr iv (d - 1) (by omega)

theorem ivStep_length (iv : List ℕ) (d : ℕ) : (ivStep iv d).length = iv.length := by
  unfold ivStep
  split <;> simp

theorem foldl_ivStep_sum (pairs : List (ℕ × ℕ)) (iv : List ℕ)
    (hlen : iv.length = 6)
    (hall : ∀ q ∈ pairs, 1 ≤ foldedInterval q.1 q.2 ∧ foldedInterval q.1 q.2 ≤ 6) :
    (pairs.foldl (fun iv q => ivStep iv (foldedInterval q.1 q.2)) iv).sum
      = iv.sum + pairs.length := by
  induction pairs generalizing iv with
  | nil => simp
  | cons q rest ih =>
    simp only [List.foldl_cons, List.length_cons]
    rw [ih _ (by rw [ivStep_length]; exact hlen)
      (fun r hr => hall r (List.mem_cons_of_mem _ hr))]
    rw [ivStep_sum iv _ (by omega) (hall q (List.mem_cons_self _ _))]
    omega

theorem pairsOf_lt {l : List ℕ} (hl : l.Pairwise (· < ·)) :
    ∀ q ∈ pairsOf l, q.1 < q.2 := by
  induction l with
  | nil => intro q hq; simp [pairsOf] at hq
  | cons x xs ih =>
    intro q hq
    simp only [pairsOf, List.mem_append, List.mem_map] at hq
    rcases hq with ⟨y, hy, rfl⟩ | hq
    · exact (List.pairwise_cons.mp hl).1 y hy
    · exact ih (List.pairwise_cons.mp hl).2 q hq

theorem pairsOf_mem {l : List ℕ} : ∀ q ∈ pairsOf l, q.1 ∈ l ∧ q.2 ∈ l := by
  induction l with
  | nil => intro q hq; simp [pairsOf] at hq
  | cons x xs ih =>
    intro q hq
    simp only [pairsOf, List.mem_append, List.mem_map] at hq
    rcases hq with ⟨y, hy, rfl⟩ | hq
    · exact ⟨List.mem_cons_self _ _, List.mem_cons_of_mem _ hy⟩
    · exact ⟨List.mem_cons_of_mem _ (ih q hq).1, List.mem_cons_of_mem _ (ih q hq).2⟩

theorem foldedInterval_bounds {a b : ℕ} (hab : a < b) (hb : b < 12) :
    1 ≤ foldedInterval a b ∧ foldedInterval a b ≤ 6 := by
  unfold foldedInterval
  have : ((b : ℤ) - (a : ℤ)).natAbs = b - a := by omega
  simp only [this]
  split <;> omega

theorem asSequence_mk12 (s : Finset ℤ) (o t : ℤ) :
    (Pcs12.mk12 s o t).asSequence
      = (List.range 12).filter (fun i : ℕ => decide ((i : ℤ) ∈ s)) := by
  apply List.filter_congr
  intro i hi
  simp only [List.mem_range] at hi
  simp [Pcs12.mk12, Pcs12.get, List.getD_eq_getElem?_getD, hi]

theorem asSequence_sorted (p : Pcs12) : p.asSequence.Pairwise (· < ·) :=
  (List.pairwise_lt_range 12).filter _

theorem asSequence_lt_12 (p : Pcs12) : ∀ b ∈ p.asSequence, b < 12 := by
  intro b hb
  have := List.mem_of_mem_filter hb
  simpa using this

theorem getK_mk12 (s : Finset ℤ) (o t : ℤ) :
    (Pcs12.mk12 s o t).getK = (Pcs12.mk12 s o t).asSequence.length := by
  rw [asSequence_mk12]
  simp only [Pcs12.getK, Pcs12.mk12, List.filter_map, List.length_map]
  rfl

/-! ### Claim theorems: C1, C8, C9, C10 -/

/-- C1 (counterexample): the claim says `parseRhythmHex "A53C"` yields the
onset set `{0,1,3,6,8,9,10,11,14,15}`; the code yields
`{0,2,5,7,10,11,12,13}` (A=1010 → 0,2; 5=0101 → 5,7; 3=0011 → 10,11;
C=1100 → 12,13), so the claimed set is wrong. -/
theorem parseRhythmHex_A53C_claim_false :
    (parseRhythmHex "A53C").toFinset ≠
      ({0, 1, 3, 6, 8, 9, 10, 11, 14, 15} : Finset ℕ) := by
  decide

/-- C1 (amended): for input "A53C", `parseRhythmHex` returns exactly the
onset positions `[0,2,5,7,10,11,12,13]`, each of the 4 hex digits decoded
MSB-first into 4 consecutive sixteenth-note slots. -/
theorem parseRhythmHex_A53C :
    parseRhythmHex "A53C" = [0, 2, 5, 7, 10, 11, 12, 13] := by
  decide

/-- C8: for every `n ≥ 1` and every `k` produced by `getCoprimes n`, the
sequence `generateMultiplierPermutation n k` is a permutation of
`0..n-1`: it visits every index exactly once. -/
theorem generateMultiplierPermutation_perm (n k : ℕ) (hn : 1 ≤ n)
    (hk : k ∈ getCoprimes n) :
    (generateMultiplierPermutation n k).Perm (List.range n) := by
  have hcop : Nat.gcd k n = 1 := by
    unfold getCoprimes at hk
    split at hk
    · have := List.mem_filter.mp hk
      have h2 := of_decide_eq_true this.2
      exact h2.2
    · simp only [List.mem_singleton] at hk
      subst hk
      simp
  have hinj : ∀ i ∈ List.range n, ∀ j ∈ List.range n,
      (i * k) % n = (j * k) % n → i = j := by
    intro i hi j hj hij
    rw [List.mem_range] at hi hj
    have hmod : i * k ≡ j * k [MOD n] := hij
    have := Nat.ModEq.cancel_right_of_coprime (by rwa [Nat.gcd_comm]) hmod
    calc i = i % n := (Nat.mod_eq_of_lt hi).symm
    _ = j % n := this
    _ = j := Nat.mod_eq_of_lt hj
  have hnodup : (generateMultiplierPermutation n k).Nodup :=
    List.Nodup.map_on hinj (List.nodup_range n)
  have hsub : generateMultiplierPermutation n k ⊆ List.range n := by
    intro x hx
    simp only [generateMultiplierPermutation, List.mem_map, List.mem_range] at hx
    obtain ⟨i, _, rfl⟩ := hx
    exact List.mem_range.mpr (Nat.mod_lt _ (by omega))
  have hsp : (generateMultiplierPermutation n k).Subperm (List.range n) :=
    List.subperm_of_subset hnodup hsub
  exact hsp.perm_of_length_le (by simp [generateMultiplierPermutation])

/-- C8 witness: instantiation at `n = 5`, `k = 2`. -/
theorem generateMultiplierPermutation_perm_witness :
    (generateMultiplierPermutation 5 2).Perm (List.range 5) :=
  generateMultiplierPermutation_perm 5 2 (by decide) (by decide)

/-- C9: for every constructed `Pcs12` with cardinality `k`, the entries of
`getIntervalVector` sum to `k * (k - 1) / 2 = C(k,2)`: every unordered pair
of distinct members lands in exactly one histogram bin. -/
theorem intervalVector_sum (s : Finset ℤ) (o t : ℤ) :
    (Pcs12.mk12 s o t).getIntervalVector.sum
      = (Pcs12.mk12 s o t).getK * ((Pcs12.mk12 s o t).getK - 1) / 2 := by
  set p := Pcs12.mk12 s o t with hp
  have hall : ∀ q ∈ pairsOf p.asSequence,
      1 ≤ foldedInterval q.1 q.2 ∧ foldedInterval q.1 q.2 ≤ 6 := by
    intro q hq
    exact foldedInterval_bounds (pairsOf_lt (asSequence_sorted p) q hq)
      (asSequence_lt_12 p q.2 (pairsOf_mem q hq).2)
  have hsum : p.getIntervalVector.sum = (pairsOf p.asSequence).length := by
    unfold Pcs12.getIntervalVector
    rw [foldl_ivStep_sum _ _ (by simp) hall]
    simp
  rw [hsum, getK_mk12, ← hp]
  have := pairsOf_length_twice p.asSequence
  omega

theorem mk12_get (s : Finset ℤ) (o t : ℤ) (i : ℕ) (hi : i < 12) :
    (Pcs12.mk12 s o t).get i = decide ((i : ℤ) ∈ s) := by
  simp only [Pcs12.mk12, Pcs12.get, List.getD_eq_getElem?_getD,
    List.getElem?_map, List.getElem?_range, hi]
  simp [hi]

theorem asSet_mk12 (s : Finset ℤ) (o t : ℤ) :
    (Pcs12.mk12 s o t).asSet = s.filter (fun x => 0 ≤ x ∧ x < 12) := by
  ext x
  simp only [Pcs12.asSet, List.mem_toFinset, List.mem_map, List.mem_filter,
    List.mem_range, Finset.mem_filter]
  constructor
  · rintro ⟨i, ⟨hi, hmem⟩, rfl⟩
    rw [mk12_get s o t i hi] at hmem
    refine ⟨by simpa using hmem, by positivity, by exact_mod_cast hi⟩
  · rintro ⟨hxs, hx0, hx12⟩
    refine ⟨x.toNat, ⟨by omega, ?_⟩, by omega⟩
    rw [mk12_get s o t x.toNat (by omega)]
    simp only [decide_eq_true_eq]
    rwa [Int.toNat_of_nonneg hx0]

theorem asSet_card_eq_asSequence_length (p : Pcs12) :
    p.asSet.card = p.asSequence.length := by
  unfold Pcs12.asSet Pcs12.asSequence
  rw [List.toFinset_card_of_nodup, List.length_map]
  exact List.Nodup.map (fun a b h => by exact_mod_cast h)
    (List.Nodup.filter _ (List.nodup_range 12))

/-- C10: the `Pcs12` constructor silently drops out-of-range entries and
never fails: the bit vector has length exactly 12, membership equals the
input intersected with `{0..11}`, and `getK` is the size of that
intersection. -/
theorem pcs12_constructor_spec (s : Finset ℤ) (o t : ℤ) :
    (Pcs12.mk12 s o t).bits.length = 12 ∧
    (Pcs12.mk12 s o t).asSet = s.filter (fun x => 0 ≤ x ∧ x < 12) ∧
    (Pcs12.mk12 s o t).getK = (s.filter (fun x => 0 ≤ x ∧ x < 12)).card := by
  refine ⟨by simp [Pcs12.mk12], asSet_mk12 s o t, ?_⟩
  rw [getK_mk12, ← asSet_card_eq_asSequence_length, asSet_mk12]

/-! ### Helper lemmas for the relation graphs -/

theorem cooccurs_symm (rhythms8 : List String) (r s : String) :
    cooccurs rhythms8 r s = cooccurs rhythms8 s r := by
  refine Bool.eq_iff_iff.mpr ?_
  unfold cooccurs
  simp only [List.any_eq_true, decide_eq_true_eq]
  constructor <;> rintro ⟨h, hh, hp⟩ <;> exact ⟨h, hh, hp.elim Or.inr Or.inl⟩

theorem mem_adj_generic (nodes : List String) (P : String → ℕ → Bool) (i j : ℕ) :
    j ∈ ((nodes.map (fun node =>
        (List.range nodes.length).filter (P node))).getD i []) ↔
      i < nodes.length ∧ j < nodes.length ∧ P (nodes.getD i "") j = true := by
  by_cases hi : i < nodes.length
  · have hi' : i < (nodes.map (fun node =>
        (List.range nodes.length).filter (P node))).length := by simpa using hi
    rw [List.getD_eq_getElem _ _ hi', List.getElem_map,
      List.mem_filter, List.mem_range, List.getD_eq_getElem _ _ hi]
    simp [hi]
  · rw [List.getD_eq_getElem?_getD, List.getElem?_map,
      List.getElem?_eq_none (by omega : nodes.length ≤ i)]
    simp only [Option.map_none', Option.getD_none, List.not_mem_nil, false_iff]
    intro hcon
    exact hi hcon.1

theorem mem_rhythm_adj (rhythms8 : List String) (i j : ℕ) :
    j ∈ (buildRhythmGraph rhythms8).adjacency.getD i [] ↔
      i < (buildRhythmGraph rhythms8).nodes.length ∧
      j < (buildRhythmGraph rhythms8).nodes.length ∧
      cooccurs rhythms8 ((buildRhythmGraph rhythms8).nodes.getD i "")
        ((buildRhythmGraph rhythms8).nodes.getD j "") = true := by
  exact mem_adj_generic (sortBy strLe (connectedKeys rhythms8))
    (fun node j' => cooccurs rhythms8 node
      ((sortBy strLe (connectedKeys rhythms8)).getD j' "")) i j

theorem mem_chord_adj (tetrads : List Pcs12) (i j : ℕ) :
    j ∈ (chordAdjacency tetrads).getD i [] ↔
      i < tetrads.length ∧ j < tetrads.length ∧
      ((j < i ∧ pcsRelationAllows (tetrads.getD j ⟨[], 0, 0⟩) (tetrads.getD i ⟨[], 0, 0⟩)) ∨
       (i < j ∧ pcsRelationAllows (tetrads.getD i ⟨[], 0, 0⟩) (tetrads.getD j ⟨[], 0, 0⟩))) := by
  by_cases hi : i < tetrads.length
  · have h1 : (chordAdjacency tetrads).getD i []
        = ((List.range tetrads.length).filter (fun i' =>
            i' < i ∧ pcsRelationAllows (tetrads.getD i' ⟨[], 0, 0⟩)
              (tetrads.getD i ⟨[], 0, 0⟩)))
          ++ ((List.range tetrads.length).filter (fun j' =>
            i < j' ∧ pcsRelationAllows (tetrads.getD i ⟨[], 0, 0⟩)
              (tetrads.getD j' ⟨[], 0, 0⟩))) := by
      unfold chordAdjacency
      rw [List.getD_eq_getElem?_getD, List.getElem?_map, List.getElem?_range hi]
      rfl
    rw [h1]
    simp only [List.mem_append, List.mem_filter, List.mem_range, decide_eq_true_eq]
    constructor
    · rintro (⟨hj, hlt, hrel⟩ | ⟨hj, hlt, hrel⟩)
      · exact ⟨hi, hj, Or.inl ⟨hlt, hrel⟩⟩
      · exact ⟨hi, hj, Or.inr ⟨hlt, hrel⟩⟩
    · rintro ⟨-, hj, (⟨hlt, hrel⟩ | ⟨hlt, hrel⟩)⟩
      · exact Or.inl ⟨hj, hlt, hrel⟩
      · exact Or.inr ⟨hj, hlt, hrel⟩
  · have h1 : (chordAdjacency tetrads).getD i [] = [] := by
      unfold chordAdjacency
      rw [List.getD_eq_getElem?_getD, List.getElem?_map,
        List.getElem?_eq_none (by simpa using hi)]
      rfl
    rw [h1]
    simp only [List.not_mem_nil, false_iff]
    intro hcon
    exact hi hcon.1

/-! ### Claim theorems: C3 -/

/-- C3 (counterexample): the rhythm graph built from the single 8-hex record
"A53CA53C", whose two halves are equal, contains the self-loop
`0 ∈ adj[0]` — the builder does not exclude `first = second`. -/
theorem buildRhythmGraph_self_loop :
    (buildRhythmGraph ["A53CA53C"]).nodes = ["A53C"] ∧
    0 ∈ (buildRhythmGraph ["A53CA53C"]).adjacency.getD 0 [] := by
  decide

/-- C3 (amended): the adjacency of both relation-graph builders is
symmetric (`j ∈ adj[i] ⇔ i ∈ adj[j]`); the chord graph is always loop-free;
the rhythm graph has a self-loop at `i` exactly when some 8-hex record of
the corpus has both halves equal to `nodes[i]`. -/
theorem relationGraphs_symmetric_loopfree :
    (∀ (rhythms8 : List String) (i j : ℕ),
        j ∈ (buildRhythmGraph rhythms8).adjacency.getD i [] ↔
        i ∈ (buildRhythmGraph rhythms8).adjacency.getD j []) ∧
    (∀ (rhythms8 : List String) (i : ℕ),
        i < (buildRhythmGraph rhythms8).nodes.length →
        (i ∈ (buildRhythmGraph rhythms8).adjacency.getD i [] ↔
          ∃ h ∈ rhythms8, split8HexTo4Hex h
            = ((buildRhythmGraph rhythms8).nodes.getD i "",
               (buildRhythmGraph rhythms8).nodes.getD i ""))) ∧
    (∀ (tetrads : List Pcs12) (i j : ℕ),
        j ∈ (chordAdjacency tetrads).getD i [] ↔
        i ∈ (chordAdjacency tetrads).getD j []) ∧
    (∀ (tetrads : List Pcs12) (i : ℕ), i ∉ (chordAdjacency tetrads).getD i []) := by
  refine ⟨?_, ?_, ?_, ?_⟩
  · intro rhythms8 i j
    rw [mem_rhythm_adj, mem_rhythm_adj, cooccurs_symm]
    tauto
  · intro rhythms8 i hi
    rw [mem_rhythm_adj]
    simp only [hi, true_and]
    unfold cooccurs
    rw [List.any_eq_true]
    constructor
    · rintro ⟨h, hh, hp⟩
      refine ⟨h, hh, ?_⟩
      have := of_decide_eq_true hp
      tauto
    · rintro ⟨h, hh, hp⟩
      exact ⟨h, hh, decide_eq_true (Or.inl hp)⟩
  · intro tetrads i j
    rw [mem_chord_adj, mem_chord_adj]
    tauto
  · intro tetrads i
    rw [mem_chord_adj]
    rintro ⟨-, -, (⟨hlt, -⟩ | ⟨hlt, -⟩)⟩ <;> omega

/-- C3 witness: instantiation of the amended theorem at a concrete corpus
and concrete tetrad list. -/
theorem relationGraphs_symmetric_loopfree_witness :
    (0 ∈ (buildRhythmGraph ["A53C0000"]).adjacency.getD 1 [] ↔
     1 ∈ (buildRhythmGraph ["A53C0000"]).adjacency.getD 0 []) ∧
    (0 ∈ (buildRhythmGraph ["A53C0000"]).adjacency.getD 0 [] ↔
      ∃ h ∈ ["A53C0000"], split8HexTo4Hex h
        = ((buildRhythmGraph ["A53C0000"]).nodes.getD 0 "",
           (buildRhythmGraph ["A53C0000"]).nodes.getD 0 "")) :=
  ⟨relationGraphs_symmetric_loopfree.1 ["A53C0000"] 1 0,
   relationGraphs_symmetric_loopfree.2.1 ["A53C0000"] 0 (by decide)⟩

/-! ### FKM development: list-indexing helpers -/

theorem getD_drop (l : List ℕ) (i j : ℕ) :
    (l.drop i).getD j 0 = l.getD (i + j) 0 := by
  rw [List.getD_eq_getElem?_getD, List.getD_eq_getElem?_getD, List.getElem?_drop]

theorem getD_take (l : List ℕ) (n j : ℕ) (h : j < n) :
    (l.take n).getD j 0 = l.getD j 0 := by
  rw [List.getD_eq_getElem?_getD, List.getD_eq_getElem?_getD, List.getElem?_take_of_lt h]

theorem getD_append_l (x y : List ℕ) (j : ℕ) (h : j < x.length) :
    (x ++ y).getD j 0 = x.getD j 0 := List.getD_append x y 0 j h

theorem getD_append_last (x : List ℕ) (b : ℕ) :
    (x ++ [b]).getD x.length 0 = b := by
  rw [List.getD_append_right x [b] 0 x.length le_rfl]
  simp

theorem getD_of_pref {x w : List ℕ} (hp : x <+: w) (j : ℕ) (h : j < x.length) :
    w.getD j 0 = x.getD j 0 := by
  obtain ⟨y, rfl⟩ := hp
  exact getD_append_l x y j h

/-! ### FKM development: lexicographic-order toolkit -/

theorem lex_of_getD_lt {x y : List ℕ} (j : ℕ) (hx : j < x.length) (hy : j < y.length)
    (heq : ∀ i < j, x.getD i 0 = y.getD i 0) (hlt : x.getD j 0 < y.getD j 0) :
    List.Lex (· < ·) x y := by
  induction j generalizing x y with
  | zero =>
    match x, y with
    | [], _ => simp at hx
    | _, [] => simp at hy
    | a :: x', b :: y' => exact List.Lex.rel (by simpa using hlt)
  | succ m ih =>
    match x, y with
    | [], _ => simp at hx
    | _, [] => simp at hy
    | a :: x', b :: y' =>
      have h0 : a = b := by simpa using heq 0 (by omega)
      subst h0
      exact List.Lex.cons (ih (by simpa using hx) (by simpa using hy)
        (fun i hi => by simpa using heq (i + 1) (by omega))
        (by simpa using hlt))

theorem not_lex_of_pref {x y : List ℕ} (hp : y <+: x) : ¬ List.Lex (· < ·) x y := by
  intro hlex
  induction hlex with
  | nil =>
    have := List.prefix_nil.mp hp
    simp at this
  | rel h =>
    have h2 := (List.cons_prefix_cons.mp hp).1
    omega
  | cons h ih =>
    exact ih (List.cons_prefix_cons.mp hp).2

theorem lex_elim {x y : List ℕ} (h : List.Lex (· < ·) x y) :
    (∃ j, j < x.length ∧ j < y.length ∧ (∀ i < j, x.getD i 0 = y.getD i 0) ∧
      x.getD j 0 < y.getD j 0) ∨ (x <+: y ∧ x.length < y.length) := by
  induction h with
  | nil =>
    right
    exact ⟨List.nil_prefix, by simp⟩
  | rel hab =>
    left
    exact ⟨0, by simp, by simp, fun i hi => by omega, by simpa using hab⟩
  | cons h ih =>
    rcases ih with ⟨j, h1, h2, h3, h4⟩ | ⟨hp, hl⟩
    · left
      refine ⟨j + 1, by simpa using h1, by simpa using h2, ?_, by simpa using h4⟩
      intro i hi
      cases i with
      | zero => simp
      | succ m => simpa using h3 m (by omega)
    · right
      obtain ⟨t, rfl⟩ := hp
      exact ⟨⟨t, rfl⟩, by simpa using hl⟩

/-! ### FKM development: periods -/

theorem minPeriod_pos (α : List ℕ) : 0 < minPeriod α :=
  (Nat.find_spec (exists_pos_period α)).1

theorem minPeriod_isPeriod (α : List ℕ) : IsPeriod (minPeriod α) α :=
  (Nat.find_spec (exists_pos_period α)).2

theorem minPeriod_min {α : List ℕ} {q : ℕ} (hq0 : 0 < q) (hq : IsPeriod q α) :
    minPeriod α ≤ q :=
  Nat.find_min' (exists_pos_period α) ⟨hq0, hq⟩

theorem minPeriod_eq {α : List ℕ} {p : ℕ} (hp0 : 0 < p) (hp : IsPeriod p α)
    (hmin : ∀ q, 0 < q → q < p → ¬ IsPeriod q α) : minPeriod α = p := by
  have h1 := minPeriod_min hp0 hp
  rcases Nat.lt_or_ge (minPeriod α) p with h | h
  · exact absurd (minPeriod_isPeriod α) (hmin _ (minPeriod_pos α) h)
  · omega

theorem period_mod {p : ℕ} {α : List ℕ} (hp : 0 < p) (hper : IsPeriod p α) :
    ∀ j, j < α.length → α.getD j 0 = α.getD (j % p) 0 := by
  intro j
  induction j using Nat.strong_induction_on with
  | _ j ih =>
    intro hj
    by_cases hcase : j < p
    · rw [Nat.mod_eq_of_lt hcase]
    · have h1 : j - p + p = j := by omega
      have h2 := hper (j - p) (by omega)
      rw [h1] at h2
      calc α.getD j 0 = α.getD (j - p) 0 := h2.symm
        _ = α.getD ((j - p) % p) 0 := ih (j - p) (by omega) (by omega)
        _ = α.getD (j % p) 0 := by rw [← Nat.mod_eq_sub_mod (by omega : j ≥ p)]

/-! ### FKM development: Lyndon words -/

theorem lyndon_first_diff {γ : List ℕ} (hl : IsLyndonList γ) {r : ℕ}
    (hr0 : 0 < r) (hrlen : r < γ.length) :
    ∃ j0, j0 < γ.length - r ∧ (∀ i < j0, γ.getD i 0 = γ.getD (r + i) 0) ∧
      γ.getD j0 0 < γ.getD (r + j0) 0 := by
  have hlex := hl.2 r hr0 hrlen
  rcases lex_elim hlex with ⟨j, h1, h2, h3, h4⟩ | ⟨hp, hlen⟩
  · refine ⟨j, by simpa using h2, ?_, ?_⟩
    · intro i hi
      have := h3 i hi
      rwa [getD_drop] at this
    · have := h4
      rwa [getD_drop] at this
  · exfalso
    have := hlen
    simp only [List.length_drop] at this
    omega

theorem drop_eq_take_of_period {γ : List ℕ} {q : ℕ} (hper : IsPeriod q γ) :
    γ.drop q = γ.take (γ.length - q) := by
  apply List.ext_getElem?
  intro i
  by_cases hi : i < γ.length - q
  · have hq' : γ[q + i]? = some (γ.getD (q + i) 0) := by
      rw [List.getElem?_eq_getElem (show q + i < γ.length by omega),
        List.getD_eq_getElem _ _ (show q + i < γ.length by omega)]
    have hi' : γ[i]? = some (γ.getD i 0) := by
      rw [List.getElem?_eq_getElem (show i < γ.length by omega),
        List.getD_eq_getElem _ _ (show i < γ.length by omega)]
    rw [List.getElem?_drop, List.getElem?_take_of_lt hi, hq', hi']
    refine congrArg some ?_
    rw [Nat.add_comm]
    exact (hper i (by omega)).symm
  · rw [List.getElem?_drop, List.getElem?_eq_none, List.getElem?_eq_none]
    · rw [List.length_take]
      omega
    · omega

theorem lyndon_no_small_period {γ : List ℕ} (hl : IsLyndonList γ) {q : ℕ}
    (hq0 : 0 < q) (hqlen : q < γ.length) (hper : IsPeriod q γ) : False := by
  have hpref : γ.drop q <+: γ := by
    rw [drop_eq_take_of_period hper]
    exact List.take_prefix _ _
  exact not_lex_of_pref hpref (hl.2 q hq0 hqlen)

/-! ### FKM development: prefixes of periodic words -/

theorem powPrefix_isPeriod {γ : List ℕ} {p : ℕ} {α : List ℕ} (hp0 : 0 < p)
    (hpp : PowPrefix γ p α) : IsPeriod p α := by
  intro j hj
  rw [hpp.2 j (by omega), hpp.2 (j + p) hj, Nat.add_mod_right]

theorem powPrefix_minPeriod {γ : List ℕ} {p : ℕ} {α : List ℕ}
    (hl : IsLyndonList γ) (hpp : PowPrefix γ p α) (hp0 : 0 < p)
    (hple : p ≤ α.length) : minPeriod α = p := by
  apply minPeriod_eq hp0 (powPrefix_isPeriod hp0 hpp)
  intro q hq0 hqp hqper
  have hγq : IsPeriod q γ := by
    intro j hj
    have hγlen : γ.length = p := hpp.1
    have e1 : γ.getD j 0 = α.getD j 0 := by
      rw [hpp.2 j (by omega), Nat.mod_eq_of_lt (by omega)]
    have e2 : γ.getD (j + q) 0 = α.getD (j + q) 0 := by
      rw [hpp.2 (j + q) (by omega), Nat.mod_eq_of_lt (by omega)]
    rw [e1, e2]
    exact hqper j (by omega)
  exact lyndon_no_small_period hl hq0 (by rw [hpp.1]; exact hqp) hγq

/-! ### FKM development: rotations of periodic words are dominated -/

theorem getD_rotate (w : List ℕ) (n i : ℕ) (h : i < w.length) :
    (w.rotate n).getD i 0 = w.getD ((i + n) % w.length) 0 := by
  rw [List.getD_eq_getElem?_getD, List.getD_eq_getElem?_getD, List.getElem?_rotate h]

theorem rotate_eq_self_of_powPrefix {γ : List ℕ} {p : ℕ} {w : List ℕ}
    (hpp : PowPrefix γ p w) (hdvd : p ∣ w.length) :
    w.rotate p = w := by
  apply List.ext_getElem?
  intro i
  by_cases hi : i < w.length
  · rw [List.getElem?_rotate hi]
    have hlen0 : 0 < w.length := by omega
    have hm : (i + p) % w.length < w.length := Nat.mod_lt _ hlen0
    rw [List.getElem?_eq_getElem hm, List.getElem?_eq_getElem hi]
    refine congrArg some ?_
    rw [← List.getD_eq_getElem _ 0 hm, ← List.getD_eq_getElem _ 0 hi]
    rw [hpp.2 _ hm, hpp.2 i hi]
    congr 1
    conv_lhs => rw [Nat.mod_mod_of_dvd _ hdvd]
    rw [Nat.add_mod_right]
  · rw [List.getElem?_eq_none (by rw [List.length_rotate]; omega),
      List.getElem?_eq_none (by omega)]

theorem rotate_mul_add {w : List ℕ} {p : ℕ} (hrot : w.rotate p = w) (q r : ℕ) :
    w.rotate (q * p + r) = w.rotate r := by
  induction q with
  | zero => simp
  | succ m ih =>
    have h1 : (m + 1) * p + r = p + (m * p + r) := by ring
    rw [h1, ← List.rotate_rotate, hrot, ih]

theorem neck_of_powPrefix {γ : List ℕ} {p : ℕ} {w : List ℕ}
    (hl : IsLyndonList γ) (hpp : PowPrefix γ p w) (hp0 : 0 < p)
    (hdvd : p ∣ w.length) : IsNecklace w := by
  intro i hi
  have hlen0 : 0 < w.length := by omega
  have hplen : p ≤ w.length := Nat.le_of_dvd hlen0 hdvd
  have hrotp := rotate_eq_self_of_powPrefix hpp hdvd
  have hred : w.rotate i = w.rotate (i % p) := by
    conv_lhs => rw [show i = i / p * p + i % p from (Nat.div_add_mod' i p).symm]
    exact rotate_mul_add hrotp (i / p) (i % p)
  by_cases hr : i % p = 0
  · left
    rw [hred, hr, List.rotate_zero]
  · right
    rw [hred]
    have hrp : i % p < p := Nat.mod_lt _ hp0
    obtain ⟨j0, hj0lt, hj0eq, hj0str⟩ := lyndon_first_diff hl
      (show 0 < i % p by omega) (by rw [hpp.1]; exact hrp)
    rw [hpp.1] at hj0lt
    have hj0p : j0 < p := by omega
    apply lex_of_getD_lt j0 (by omega) (by rw [List.length_rotate]; omega)
    · intro i' hi'
      have hi'p : i' < p := by omega
      rw [getD_rotate w _ i' (by omega)]
      have hmod : (i' + i % p) % w.length = i' + i % p := Nat.mod_eq_of_lt (by omega)
      rw [hmod, hpp.2 i' (by omega), hpp.2 (i' + i % p) (by omega)]
      rw [Nat.mod_eq_of_lt hi'p, Nat.mod_eq_of_lt (by omega : i' + i % p < p)]
      have h := hj0eq i' hi'
      rwa [Nat.add_comm (i % p) i'] at h
    · rw [getD_rotate w _ j0 (by omega)]
      have hmod : (j0 + i % p) % w.length = j0 + i % p := Nat.mod_eq_of_lt (by omega)
      rw [hmod, hpp.2 j0 (by omega), hpp.2 (j0 + i % p) (by omega)]
      rw [Nat.mod_eq_of_lt hj0p, Nat.mod_eq_of_lt (by omega : j0 + i % p < p)]
      have h := hj0str
      rwa [Nat.add_comm (i % p) j0] at h

/-! ### FKM development: the Duval/FKM extension step

Extending a prefix of `γ^∞` by a character strictly greater than the next
periodic character yields a Lyndon word — the invariant step for the
`a[t] = j` (`j > a[t-p]`) branch of `subGen`. -/

theorem lyndon_extend {γ : List ℕ} {p : ℕ} {α : List ℕ} {b : ℕ}
    (hl : IsLyndonList γ) (hpp : PowPrefix γ p α) (hp0 : 0 < p)
    (hple : p ≤ α.length) (hb : γ.getD (α.length % p) 0 < b) :
    IsLyndonList (α ++ [b]) := by
  constructor
  · simp
  · intro i hi0 hilen
    have hile : i ≤ α.length := by
      have := hilen
      simp only [List.length_append, List.length_singleton] at this
      omega
    have hdropeq : (α ++ [b]).drop i = α.drop i ++ [b] :=
      List.drop_append_of_le_length hile
    rw [hdropeq]
    by_cases hcase : i % p = 0
    · have hip : p ≤ i := by
        rcases Nat.eq_zero_or_pos i with h0 | h0
        · omega
        · exact Nat.le_of_dvd h0 (Nat.dvd_of_mod_eq_zero hcase)
      have hmi : α.length - i < α.length := by omega
      apply lex_of_getD_lt (α.length - i) (by simp; omega)
        (by simp only [List.length_append, List.length_drop, List.length_singleton]; omega)
      · intro i' hi'
        rw [getD_append_l _ _ i' (by omega),
          getD_append_l _ _ i' (by simp only [List.length_drop]; omega), getD_drop]
        rw [hpp.2 i' (by omega), hpp.2 (i + i') (by omega)]
        congr 1
        rw [Nat.add_mod, hcase, Nat.zero_add, Nat.mod_mod_of_dvd _ dvd_rfl]
      · have hLHS : (α ++ [b]).getD (α.length - i) 0 = γ.getD (α.length % p) 0 := by
          rw [getD_append_l _ _ _ hmi, hpp.2 (α.length - i) (by omega)]
          congr 1
          conv_rhs => rw [show α.length = (α.length - i) + i by omega]
          rw [Nat.add_mod, hcase, Nat.add_zero, Nat.mod_mod_of_dvd _ dvd_rfl]
        have hRHS : (α.drop i ++ [b]).getD (α.length - i) 0 = b := by
          have hld : (α.drop i).length = α.length - i := by simp
          rw [← hld]
          exact getD_append_last _ b
        rw [hLHS, hRHS]
        exact hb
    · have hrp : i % p < p := Nat.mod_lt _ hp0
      obtain ⟨j0, hj0lt, hj0eq, hj0str⟩ := lyndon_first_diff hl
        (show 0 < i % p by omega) (by rw [hpp.1]; exact hrp)
      rw [hpp.1] at hj0lt
      by_cases hj0case : j0 < α.length - i
      · apply lex_of_getD_lt j0 (by simp; omega)
          (by simp only [List.length_append, List.length_drop, List.length_singleton]; omega)
        · intro i' hi'
          rw [getD_append_l _ _ i' (by omega),
            getD_append_l _ _ i' (by simp only [List.length_drop]; omega), getD_drop]
          rw [hpp.2 i' (by omega), hpp.2 (i + i') (by omega)]
          have h1 : i' % p = i' := Nat.mod_eq_of_lt (by omega)
          have h2 : (i + i') % p = i % p + i' := by
            rw [Nat.add_mod, Nat.mod_eq_of_lt (by omega : i' < p)]
            exact Nat.mod_eq_of_lt (by omega)
          rw [h1, h2]
          exact hj0eq i' hi'
        · rw [getD_append_l _ _ j0 (by omega),
            getD_append_l _ _ j0 (by simp only [List.length_drop]; omega), getD_drop]
          rw [hpp.2 j0 (by omega), hpp.2 (i + j0) (by omega)]
          have h1 : j0 % p = j0 := Nat.mod_eq_of_lt (by omega)
          have h2 : (i + j0) % p = i % p + j0 := by
            rw [Nat.add_mod, Nat.mod_eq_of_lt (by omega : j0 < p)]
            exact Nat.mod_eq_of_lt (by omega)
          rw [h1, h2]
          exact hj0str
      · have hℓj : α.length - i ≤ j0 := by omega
        have hℓr : (α.length - i) + i % p < p := by omega
        have hs : α.length % p = i % p + (α.length - i) := by
          conv_lhs => rw [show α.length = i + (α.length - i) by omega]
          rw [Nat.add_mod, Nat.mod_eq_of_lt (by omega : α.length - i < p)]
          exact Nat.mod_eq_of_lt (by omega)
        apply lex_of_getD_lt (α.length - i) (by simp; omega)
          (by simp only [List.length_append, List.length_drop, List.length_singleton]; omega)
        · intro i' hi'
          rw [getD_append_l _ _ i' (by omega),
            getD_append_l _ _ i' (by simp only [List.length_drop]; omega), getD_drop]
          rw [hpp.2 i' (by omega), hpp.2 (i + i') (by omega)]
          have h1 : i' % p = i' := Nat.mod_eq_of_lt (by omega)
          have h2 : (i + i') % p = i % p + i' := by
            rw [Nat.add_mod, Nat.mod_eq_of_lt (by omega : i' < p)]
            exact Nat.mod_eq_of_lt (by omega)
          rw [h1, h2]
          exact hj0eq i' (by omega)
        · have hℓm : α.length - i < α.length := by omega
          have hLHS : (α ++ [b]).getD (α.length - i) 0 = γ.getD (α.length - i) 0 := by
            rw [getD_append_l _ _ _ hℓm, hpp.2 (α.length - i) (by omega),
              Nat.mod_eq_of_lt (by omega)]
          have hRHS : (α.drop i ++ [b]).getD (α.length - i) 0 = b := by
            have hld : (α.drop i).length = α.length - i := by simp
            rw [← hld]
            exact getD_append_last _ b
          rw [hLHS, hRHS]
          rcases Nat.lt_or_ge (α.length - i) j0 with hc | hc
          · calc γ.getD (α.length - i) 0
                = γ.getD (i % p + (α.length - i)) 0 := hj0eq _ hc
              _ = γ.getD (α.length % p) 0 := by rw [hs]
              _ < b := hb
          · have hej : α.length - i = j0 := by omega
            calc γ.getD (α.length - i) 0
                < γ.getD (i % p + (α.length - i)) 0 := by rw [hej]; exact hj0str
              _ = γ.getD (α.length % p) 0 := by rw [hs]
              _ < b := hb

/-! ### FKM development: the written prefix under the write `a[t] := v` -/

theorem prefixOf_length (a : List ℕ) (t : ℕ) (h : t ≤ a.length) :
    (prefixOf a t).length = t - 1 := by
  simp only [prefixOf, List.length_drop, List.length_take]
  omega

theorem prefixOf_getD (a : List ℕ) (t j : ℕ) (hj : j + 1 < t) :
    (prefixOf a t).getD j 0 = a.getD (j + 1) 0 := by
  unfold prefixOf
  rw [getD_drop, getD_take _ _ _ (by omega : 1 + j < t)]
  congr 1
  omega

theorem prefixOf_set (a : List ℕ) (t v : ℕ) (h1 : 1 ≤ t) (h2 : t < a.length) :
    prefixOf (a.set t v) (t + 1) = prefixOf a t ++ [v] := by
  unfold prefixOf
  have hset : a.set t v = a.take t ++ v :: a.drop (t + 1) := by
    rw [List.set_eq_take_append_cons_drop]
    simp [h2]
  rw [hset]
  have hx : (a.take t).length = t := by
    rw [List.length_take]
    omega
  have h3 : (a.take t ++ v :: a.drop (t + 1)).take (t + 1)
      = a.take t ++ (v :: a.drop (t + 1)).take 1 := by
    conv_lhs => rw [show t + 1 = (a.take t).length + 1 by rw [hx]]
    exact List.take_append 1
  rw [h3, show (v :: a.drop (t + 1)).take 1 = [v] from rfl,
    List.drop_append_of_le_length (by rw [hx]; exact h1 : 1 ≤ (a.take t).length)]

/-! ### FKM development: pointwise congruence and disjointness for flatMap -/

theorem flatMap_congr_mem {α β : Type} (l : List α) {f g : α → List β}
    (h : ∀ x ∈ l, f x = g x) : l.flatMap f = l.flatMap g := by
  induction l with
  | nil => rfl
  | cons a l ih =>
    rw [List.flatMap_cons a l f, List.flatMap_cons a l g,
      h a (List.mem_cons_self a l), ih (fun x hx => h x (List.mem_cons_of_mem a hx))]

theorem nodup_flatMap_key (vs : List ℕ) (f : ℕ → List (List ℕ)) (key : List ℕ → ℕ)
    (hvs : vs.Nodup) (hn : ∀ v ∈ vs, (f v).Nodup)
    (hkey : ∀ v ∈ vs, ∀ w ∈ f v, key w = v) :
    (vs.flatMap f).Nodup := by
  induction vs with
  | nil => simp
  | cons v vs ih =>
    rw [List.flatMap_cons v vs f, List.nodup_append]
    refine ⟨hn v (List.mem_cons_self v vs), ?_, ?_⟩
    · exact ih (List.Nodup.of_cons hvs) (fun u hu => hn u (List.mem_cons_of_mem v hu))
        (fun u hu => hkey u (List.mem_cons_of_mem v hu))
    · intro w hw hw'
      rw [List.mem_flatMap] at hw'
      obtain ⟨u, hu, hwu⟩ := hw'
      have h1 := hkey v (List.mem_cons_self v vs) w hw
      have h2 := hkey u (List.mem_cons_of_mem v hu) w hwu
      rw [h1] at h2
      rw [List.nodup_cons] at hvs
      exact hvs.1 (by rw [h2]; exact hu)

/-! ### FKM development: every emitted value stays below the alphabet size -/

theorem subGenAllF_bounded (n k : ℕ) (hk : 1 ≤ k) :
    ∀ fuel a t p, (∀ x ∈ a, x < k) →
    ∀ w ∈ subGenAllF n k fuel a t p, ∀ x ∈ w, x < k := by
  intro fuel
  induction fuel with
  | zero =>
    intro a t p hb w hw x hx
    simp only [subGenAllF, List.mem_singleton] at hw
    subst hw
    exact hb x (List.mem_of_mem_take (List.mem_of_mem_drop hx))
  | succ m ih =>
    intro a t p hb w hw
    simp only [subGenAllF, List.mem_append, List.mem_flatMap] at hw
    have hb0 : a.getD (t - p) 0 < k := by
      by_cases hc : t - p < a.length
      · rw [List.getD_eq_getElem a 0 hc]
        exact hb _ (List.getElem_mem hc)
      · rw [List.getD_eq_default a 0 (by omega)]
        omega
    rcases hw with hw | ⟨j, hj, hw⟩
    · refine ih _ _ _ ?_ w hw
      intro x hx
      rcases List.mem_or_eq_of_mem_set hx with h | h
      · exact hb x h
      · omega
    · have hjk : j < k := by
        have := List.mem_range'_1.mp hj
        omega
      refine ih _ _ _ ?_ w hw
      intro x hx
      rcases List.mem_or_eq_of_mem_set hx with h | h
      · exact hb x h
      · omega

/-! ### FKM development: every candidate extends the written prefix -/

theorem subGenAllF_mem (n k : ℕ) :
    ∀ fuel a t p, t + fuel = n + 1 → a.length = n + 1 → 1 ≤ t →
    ∀ w ∈ subGenAllF n k fuel a t p, prefixOf a t <+: w ∧ w.length = n := by
  intro fuel
  induction fuel with
  | zero =>
    intro a t p ht ha _ w hw
    simp only [subGenAllF, List.mem_singleton] at hw
    subst hw
    have htn1 : t = n + 1 := by omega
    subst htn1
    refine ⟨List.prefix_rfl, ?_⟩
    show (prefixOf a (n + 1)).length = n
    rw [prefixOf_length a (n + 1) (by omega)]
    omega
  | succ m ih =>
    intro a t p ht ha ht1 w hw
    simp only [subGenAllF, List.mem_append, List.mem_flatMap] at hw
    have htn : t < a.length := by omega
    rcases hw with hw | ⟨j, hj, hw⟩
    · obtain ⟨hpre, hlen⟩ := ih (a.set t (a.getD (t - p) 0)) (t + 1) p (by omega)
        (by rw [List.length_set]; exact ha) (by omega) w hw
      rw [prefixOf_set a t _ ht1 htn] at hpre
      exact ⟨(List.prefix_append _ _).trans hpre, hlen⟩
    · obtain ⟨hpre, hlen⟩ := ih (a.set t j) (t + 1) t (by omega)
        (by rw [List.length_set]; exact ha) (by omega) w hw
      rw [prefixOf_set a t j ht1 htn] at hpre
      exact ⟨(List.prefix_append _ _).trans hpre, hlen⟩

/-! ### FKM development: the candidate list has no duplicates -/

theorem subGenAllF_nodup (n k : ℕ) :
    ∀ fuel a t p, t + fuel = n + 1 → a.length = n + 1 → 1 ≤ t →
    (subGenAllF n k fuel a t p).Nodup := by
  intro fuel
  induction fuel with
  | zero =>
    intro a t p _ _ _
    simp [subGenAllF]
  | succ m ih =>
    intro a t p ht ha ht1
    have htn : t < a.length := by omega
    have hkey : ∀ v p', ∀ w ∈ subGenAllF n k m (a.set t v) (t + 1) p',
        w.getD (t - 1) 0 = v := by
      intro v p' w hw
      obtain ⟨hpre, _⟩ := subGenAllF_mem n k m (a.set t v) (t + 1) p' (by omega)
        (by rw [List.length_set]; exact ha) (by omega) w hw
      rw [prefixOf_set a t v ht1 htn] at hpre
      have hlenp : (prefixOf a t).length = t - 1 := prefixOf_length a t (by omega)
      rw [getD_of_pref hpre (t - 1)
        (by rw [List.length_append, hlenp, List.length_singleton]; omega)]
      conv_lhs => rw [show t - 1 = (prefixOf a t).length from hlenp.symm]
      exact getD_append_last _ _
    simp only [subGenAllF]
    rw [List.nodup_append]
    refine ⟨?_, ?_, ?_⟩
    · exact ih _ _ _ (by omega) (by rw [List.length_set]; exact ha) (by omega)
    · apply nodup_flatMap_key _ _ (fun w => w.getD (t - 1) 0)
      · exact List.nodup_range' _ _
      · intro v _
        exact ih _ _ _ (by omega) (by rw [List.length_set]; exact ha) (by omega)
      · intro v _ w hw
        exact hkey v t w hw
    · intro w hw hw'
      rw [List.mem_flatMap] at hw'
      obtain ⟨j, hj, hwj⟩ := hw'
      have h1 := hkey (a.getD (t - p) 0) p w hw
      have h2 := hkey j t w hwj
      have := List.mem_range'_1.mp hj
      omega

/-! ### FKM development: the invariant holds initially and is preserved -/

theorem subGenInv_init (n : ℕ) : SubGenInv n (List.replicate (n + 1) 0) 1 1 :=
  ⟨by simp, le_rfl, by omega, by omega, fun h => absurd h (by omega), fun _ => rfl⟩

theorem subGenInv_singleton {n : ℕ} {a : List ℕ} (ha : a.length = n + 1) (hn : 1 ≤ n)
    (v : ℕ) : SubGenInv n (a.set 1 v) 2 1 := by
  have h1a : (1 : ℕ) < a.length := by omega
  have hps := prefixOf_set a 1 v le_rfl h1a
  have hnil : prefixOf a 1 = [] := by
    apply List.eq_nil_of_length_eq_zero
    rw [prefixOf_length a 1 (by omega)]
  rw [hnil] at hps
  have hps' : prefixOf (a.set 1 v) 2 = [v] := hps
  refine ⟨by rw [List.length_set]; exact ha, by omega, by omega, by omega, ?_, by omega⟩
  intro _
  rw [hps']
  have htake : [v].take 1 = [v] := rfl
  rw [htake]
  refine ⟨by omega, ⟨by simp, ?_⟩, ⟨rfl, ?_⟩⟩
  · intro i hi0 hil
    rw [List.length_singleton] at hil
    omega
  · intro j' hj'
    rw [List.length_singleton] at hj'
    have hj0 : j' = 0 := by omega
    subst hj0
    rfl

theorem subGenInv_eq {n : ℕ} {a : List ℕ} {t p : ℕ}
    (hI : SubGenInv n a t p) (htn : t ≤ n) :
    SubGenInv n (a.set t (a.getD (t - p) 0)) (t + 1) p := by
  obtain ⟨ha, ht1, htn', hp0, hlyn, ht1p⟩ := hI
  have htlt : t < a.length := by omega
  by_cases hc : 2 ≤ t
  · obtain ⟨hpt, hlyndon, hpp⟩ := hlyn hc
    have hplen : (prefixOf a t).length = t - 1 := prefixOf_length a t (by omega)
    have hps := prefixOf_set a t (a.getD (t - p) 0) ht1 htlt
    have hb0idx : (prefixOf a t).getD (t - p - 1) 0 = a.getD (t - p) 0 := by
      rw [prefixOf_getD a t (t - p - 1) (by omega)]
      congr 1
      omega
    have hb0γ : ((prefixOf a t).take p).getD ((t - 1) % p) 0 = a.getD (t - p) 0 := by
      rw [← hb0idx, hpp.2 (t - p - 1) (by rw [hplen]; omega)]
      congr 1
      conv_lhs => rw [show t - 1 = (t - p - 1) + p by omega]
      rw [Nat.add_mod_right]
    refine ⟨by rw [List.length_set]; exact ha, by omega, by omega, hp0, ?_, by omega⟩
    intro _
    rw [hps]
    have hγeq : (prefixOf a t ++ [a.getD (t - p) 0]).take p = (prefixOf a t).take p :=
      List.take_append_of_le_length (by rw [hplen]; omega)
    rw [hγeq]
    refine ⟨by omega, hlyndon, hpp.1, ?_⟩
    intro j' hj'
    rw [List.length_append, hplen, List.length_singleton] at hj'
    by_cases hjc : j' < t - 1
    · rw [getD_append_l _ _ j' (by rw [hplen]; omega)]
      exact hpp.2 j' (by rw [hplen]; omega)
    · have hjeq : j' = t - 1 := by omega
      subst hjeq
      have hL : (prefixOf a t ++ [a.getD (t - p) 0]).getD (t - 1) 0
          = a.getD (t - p) 0 := by
        conv_lhs => rw [show t - 1 = (prefixOf a t).length from hplen.symm]
        exact getD_append_last _ _
      rw [hL]
      exact hb0γ.symm
  · have ht1' : t = 1 := by omega
    subst ht1'
    have hp1 : p = 1 := ht1p rfl
    subst hp1
    exact subGenInv_singleton ha (by omega) _

theorem subGenInv_j {n : ℕ} {a : List ℕ} {t p v : ℕ}
    (hI : SubGenInv n a t p) (htn : t ≤ n) (hv : a.getD (t - p) 0 < v) :
    SubGenInv n (a.set t v) (t + 1) t := by
  obtain ⟨ha, ht1, htn', hp0, hlyn, ht1p⟩ := hI
  have htlt : t < a.length := by omega
  by_cases hc : 2 ≤ t
  · obtain ⟨hpt, hlyndon, hpp⟩ := hlyn hc
    have hplen : (prefixOf a t).length = t - 1 := prefixOf_length a t (by omega)
    have hps := prefixOf_set a t v ht1 htlt
    have hb0idx : (prefixOf a t).getD (t - p - 1) 0 = a.getD (t - p) 0 := by
      rw [prefixOf_getD a t (t - p - 1) (by omega)]
      congr 1
      omega
    have hb0γ : ((prefixOf a t).take p).getD ((t - 1) % p) 0 = a.getD (t - p) 0 := by
      rw [← hb0idx, hpp.2 (t - p - 1) (by rw [hplen]; omega)]
      congr 1
      conv_lhs => rw [show t - 1 = (t - p - 1) + p by omega]
      rw [Nat.add_mod_right]
    have hlyn' : IsLyndonList (prefixOf a t ++ [v]) := by
      apply lyndon_extend hlyndon hpp hp0 (by rw [hplen]; omega)
      rw [hplen, hb0γ]
      exact hv
    refine ⟨by rw [List.length_set]; exact ha, by omega, by omega, by omega, ?_, by omega⟩
    intro _
    rw [hps]
    have hlen' : (prefixOf a t ++ [v]).length = t := by
      rw [List.length_append, hplen, List.length_singleton]
      omega
    have htake : (prefixOf a t ++ [v]).take t = prefixOf a t ++ [v] :=
      List.take_of_length_le (by rw [hlen'])
    rw [htake]
    refine ⟨by omega, hlyn', hlen', ?_⟩
    intro j' hj'
    rw [hlen'] at hj'
    congr 1
    exact (Nat.mod_eq_of_lt hj').symm
  · have ht1' : t = 1 := by omega
    subst ht1'
    exact subGenInv_singleton ha (by omega) v

/-! ### FKM development: what the invariant says at a leaf (`t = n + 1`) -/

theorem subGenInv_leaf {n : ℕ} {a : List ℕ} {p : ℕ} (hI : SubGenInv n a (n + 1) p) :
    minPeriod (prefixOf a (n + 1)) = p ∧
    (n % p = 0 → IsNecklace (prefixOf a (n + 1))) := by
  obtain ⟨ha, _, _, hp0, hlyn, ht1p⟩ := hI
  by_cases hn : 1 ≤ n
  · obtain ⟨hpt, hlyndon, hpp⟩ := hlyn (by omega)
    have hplen : (prefixOf a (n + 1)).length = n := by
      rw [prefixOf_length a (n + 1) (by omega)]
      omega
    constructor
    · exact powPrefix_minPeriod hlyndon hpp hp0 (by rw [hplen]; omega)
    · intro hacc
      exact neck_of_powPrefix hlyndon hpp hp0
        (by rw [hplen]; exact Nat.dvd_of_mod_eq_zero hacc)
  · have hp1 : p = 1 := ht1p (by omega)
    have hnil : prefixOf a (n + 1) = [] := by
      apply List.eq_nil_of_length_eq_zero
      rw [prefixOf_length a (n + 1) (by omega)]
      omega
    rw [hnil, hp1]
    constructor
    · apply minPeriod_eq (by omega)
      · intro j hj
        rw [List.length_nil] at hj
        omega
      · intro q hq0 hq1 _
        exact absurd hq1 (by omega)
    · intro _ i hi
      rw [List.length_nil] at hi
      omega

/-! ### FKM development: soundness of the generator -/

theorem subGenF_sound (n k : ℕ) :
    ∀ fuel a t p, t + fuel = n + 1 → SubGenInv n a t p →
    ∀ w ∈ subGenF n k fuel a t p, w.length = n ∧ IsNecklace w := by
  intro fuel
  induction fuel with
  | zero =>
    intro a t p ht hI w hw
    have htn1 : t = n + 1 := by omega
    subst htn1
    simp only [subGenF] at hw
    by_cases hacc : n % p = 0
    · rw [if_pos hacc, List.mem_singleton] at hw
      subst hw
      have hleaf := subGenInv_leaf hI
      refine ⟨?_, hleaf.2 hacc⟩
      show (prefixOf a (n + 1)).length = n
      rw [prefixOf_length a (n + 1) (by have := hI.1; omega)]
      omega
    · rw [if_neg hacc] at hw
      simp at hw
  | succ m ih =>
    intro a t p ht hI w hw
    simp only [subGenF, List.mem_append, List.mem_flatMap] at hw
    rcases hw with hw | ⟨j, hj, hw⟩
    · exact ih _ _ _ (by omega) (subGenInv_eq hI (by omega)) w hw
    · have hjb : a.getD (t - p) 0 < j := by
        have := List.mem_range'_1.mp hj
        omega
      exact ih _ _ _ (by omega) (subGenInv_j hI (by omega) hjb) w hw

/-! ### FKM development: the acceptance test keeps exactly the candidates
whose minimal period divides `n` -/

theorem subGenF_eq_filter (n k : ℕ) :
    ∀ fuel a t p, t + fuel = n + 1 → SubGenInv n a t p →
    subGenF n k fuel a t p
      = (subGenAllF n k fuel a t p).filter (fun w => decide (n % minPeriod w = 0)) := by
  intro fuel
  induction fuel with
  | zero =>
    intro a t p ht hI
    have htn1 : t = n + 1 := by omega
    subst htn1
    have hmp : minPeriod ((a.take (n + 1)).drop 1) = p := (subGenInv_leaf hI).1
    simp only [subGenF, subGenAllF, List.filter_singleton, hmp]
    by_cases hacc : n % p = 0
    · rw [if_pos hacc]
      simp [hacc]
    · rw [if_neg hacc]
      simp [hacc]
  | succ m ih =>
    intro a t p ht hI
    simp only [subGenF, subGenAllF]
    rw [List.filter_append, List.filter_flatMap]
    congr 1
    · exact ih _ _ _ (by omega) (subGenInv_eq hI (by omega))
    · apply flatMap_congr_mem
      intro j hj
      have hjb : a.getD (t - p) 0 < j := by
        have := List.mem_range'_1.mp hj
        omega
      exact ih _ _ _ (by omega) (subGenInv_j hI (by omega) hjb)

theorem generateNecklaces_eq_filter (n k : ℕ) :
    generateNecklaces n k
      = (allCandidates n k).filter (fun w => decide (n % minPeriod w = 0)) :=
  subGenF_eq_filter n k n (List.replicate (n + 1) 0) 1 1 (by omega) (subGenInv_init n)

/-! ### Claim theorem: C2 -/

/-- C2: for every `n` and every alphabet size `k ≥ 1`, `generateNecklaces(n, k)`
emits pairwise-distinct length-`n` strings over `{0, …, k-1}`, each of which is
lexicographically minimal among its rotations (a canonical necklace); a
candidate reached by the recursion is kept exactly when `n` is a multiple of
its minimal period; and `generateNecklaces(12, 2)` yields exactly 352
necklaces. -/
theorem generateNecklaces_spec (n k : ℕ) (hk : 1 ≤ k) :
    (generateNecklaces n k).Nodup ∧
    (∀ w ∈ generateNecklaces n k, w.length = n ∧ (∀ x ∈ w, x < k) ∧ IsNecklace w) ∧
    generateNecklaces n k
      = (allCandidates n k).filter (fun w => decide (n % minPeriod w = 0)) ∧
    (generateNecklaces 12 2).length = 352 := by
  have hfil : generateNecklaces n k
      = (allCandidates n k).filter (fun w => decide (n % minPeriod w = 0)) :=
    generateNecklaces_eq_filter n k
  have hnodupAll : (allCandidates n k).Nodup :=
    subGenAllF_nodup n k n (List.replicate (n + 1) 0) 1 1 (by omega) (by simp) le_rfl
  refine ⟨?_, ?_, hfil, ?_⟩
  · rw [hfil]
    exact hnodupAll.filter _
  · intro w hw
    have hs : w.length = n ∧ IsNecklace w :=
      subGenF_sound n k n (List.replicate (n + 1) 0) 1 1 (by omega)
        (subGenInv_init n) w hw
    have hwAll : w ∈ allCandidates n k := by
      rw [hfil] at hw
      exact List.mem_of_mem_filter hw
    have hb : ∀ x ∈ w, x < k := by
      refine subGenAllF_bounded n k hk n (List.replicate (n + 1) 0) 1 1 ?_ w hwAll
      intro x hx
      rw [List.eq_of_mem_replicate hx]
      omega
    exact ⟨hs.1, hb, hs.2⟩
  · set_option maxRecDepth 10000 in decide

/-- Witness for C2 at the concrete pair `(12, 2)`. -/
theorem generateNecklaces_spec_witness :
    1 ≤ 2 ∧ ((generateNecklaces 12 2).Nodup ∧
      (∀ w ∈ generateNecklaces 12 2,
        w.length = 12 ∧ (∀ x ∈ w, x < 2) ∧ IsNecklace w) ∧
      generateNecklaces 12 2
        = (allCandidates 12 2).filter (fun w => decide (12 % minPeriod w = 0)) ∧
      (generateNecklaces 12 2).length = 352) :=
  ⟨by decide, generateNecklaces_spec 12 2 (by decide)⟩

/-! ### Claim theorems: C4 -/

/-- C4 (counterexample): with every random draw equal to 0, both size-4
subset picks select the same chord, so the generated hyperbar holds only 3
distinct chords (and the duplicated chord occupies the non-contiguous bars
2,3,6,7), refuting "exactly 4 distinct chords". -/
theorem generateHyperbar_not_always_4_distinct :
    ¬ ((generateHyperbar exampleState (List.replicate 10 0)).1.currentHyperbarChords.toFinset.card
        = 4) ∧
    (generateHyperbar exampleState (List.replicate 10 0)).1.currentHyperbarChords.toFinset.card
      = 3 := by
  constructor
  · decide
  · decide

/-- C4 (amended): every hyperbar the scale-subset strategy produces lays
the four drawn chords out as `[c0,c0,c1,c1,c2,c2,c3,c3]` (each draw
occupying exactly 2 contiguous bars), with at most 4 distinct chords —
exactly 4 precisely when the four draws are pairwise distinct (the two
independent size-4 draws may coincide). -/
theorem generateHyperbar_chord_layout (s : EngineState) (rng : Rng) :
    ∃ c0 c1 c2 c3 : Pcs12,
      (generateHyperbar s rng).1.currentHyperbarChords = [c0, c0, c1, c1, c2, c2, c3, c3] ∧
      (generateHyperbar s rng).1.currentHyperbarChords.toFinset.card ≤ 4 ∧
      ((generateHyperbar s rng).1.currentHyperbarChords.toFinset.card = 4 ↔
        ([c0, c1, c2, c3] : List Pcs12).Nodup) := by
  obtain ⟨c0, c1, c2, c3, h⟩ : ∃ c0 c1 c2 c3 : Pcs12,
      (generateHyperbar s rng).1.currentHyperbarChords
        = [c0, c0, c1, c1, c2, c2, c3, c3] := ⟨_, _, _, _, rfl⟩
  have hfin : ((generateHyperbar s rng).1.currentHyperbarChords).toFinset
      = ([c0, c1, c2, c3] : List Pcs12).toFinset := by
    rw [h]
    ext x
    simp only [List.mem_toFinset, List.mem_cons, List.not_mem_nil, or_false]
    tauto
  refine ⟨c0, c1, c2, c3, h, ?_, ?_⟩
  · rw [hfin]
    exact le_trans (List.toFinset_card_le _) (by simp)
  · rw [hfin, List.card_toFinset]
    constructor
    · intro h4
      have hlen : ([c0, c1, c2, c3] : List Pcs12).dedup.length
          = ([c0, c1, c2, c3] : List Pcs12).length := by simp [h4]
      have heq := (List.dedup_sublist ([c0, c1, c2, c3] : List Pcs12)).eq_of_length hlen
      exact List.dedup_eq_self.mp heq
    · intro hnd
      rw [List.dedup_eq_self.mpr hnd]
      rfl

/-! ### Claim theorems: C6 -/

/-- C6 (code bug, failing input): offline rendering of a single hyperbar
from the fresh engine state leaves the current hyperbar chord array and the
active pitch classes changed after the call — the save/restore wrapper
omits them (as well as the hyperbar rhythm array and the rhythm-graph
cursor), so offline rendering corrupts a concurrent live session's state. -/
theorem generateNoteEvents_not_state_preserving :
    ((generateNoteEvents 1 exampleState (List.replicate 40 (7/10))).2.1.currentHyperbarChords
      ≠ exampleState.currentHyperbarChords) ∧
    ((generateNoteEvents 1 exampleState (List.replicate 40 (7/10))).2.1.activePitchClasses
      ≠ exampleState.activePitchClasses) := by
  constructor
  · decide
  · decide

/-! ### Claim theorems: C5 -/

/-- C5 (counterexample): at 60 BPM (`barsPerSecond = 1/4`, bar = 4s) from
start time 0, a first candidate at `t = 5` (past the one-bar bound) that the
acceptance test rejects makes the function return the fallback `3`, which is
*not* within the next half-bar `[0, 2]` after the start time. -/
theorem sampleNextHawkesEventTime_claim_false :
    sampleNextHawkesEventTime (1/4) 0 (1/2) [(5, false)] = some 3 ∧
    ¬ ((3 : ℚ) ≤ 0 + (1/2) / (1/4)) := by
  constructor
  · decide
  · decide

/-- C5 (amended): the thinning search never runs more than one bar past the
start time and never throws: as soon as a candidate exceeds `start + 1 bar`
the call returns — the candidate itself when the acceptance test passed,
otherwise the synthesized fallback, which lies at least half a bar and less
than one full bar after the start time. -/
theorem sampleNextHawkesEventTime_fallback :
    (∀ (bps start u : ℚ), 0 < bps → 0 ≤ u → u < 1 →
        start + (1/2) / bps ≤ hawkesFallback bps start u ∧
        hawkesFallback bps start u < start + 1 / bps) ∧
    (∀ (bps start u dt : ℚ) (acc : Bool) (rest : List (ℚ × Bool)) (t : ℚ),
        t + dt > start + 1 / bps →
        sampleLoop bps start u ((dt, acc) :: rest) t
          = some (if acc then t + dt else hawkesFallback bps start u)) := by
  constructor
  · intro bps start u hbps hu0 hu1
    unfold hawkesFallback
    have hpos : 0 < (1/2) / bps := by positivity
    constructor
    · nlinarith
    · have : u * ((1/2) / bps) < 1 * ((1/2) / bps) :=
        (mul_lt_mul_of_pos_right hu1 hpos)
      have hhalf : (1/2) / bps + (1/2) / bps = 1 / bps := by
        rw [div_add_div_same]
        norm_num
      nlinarith
  · intro bps start u dt acc rest t hover
    cases acc with
    | true => simp [sampleLoop]
    | false =>
      unfold sampleLoop
      rw [if_neg (by simp), if_pos hover]
      simp

/-- C5 witness: the amended theorem applied at `barsPerSecond = 1/4`,
start 0, `u = 1/2`, and a rejected step crossing the bound. -/
theorem sampleNextHawkesEventTime_fallback_witness :
    (0 + (1/2) / (1/4 : ℚ) ≤ hawkesFallback (1/4) 0 (1/2) ∧
      hawkesFallback (1/4) 0 (1/2) < 0 + 1 / (1/4 : ℚ)) ∧
    sampleLoop (1/4) 0 (1/2) [(5, false)] 0
      = some (if false then (0 : ℚ) + 5 else hawkesFallback (1/4) 0 (1/2)) :=
  ⟨sampleNextHawkesEventTime_fallback.1 (1/4) 0 (1/2) (by decide) (by decide) (by decide),
   sampleNextHawkesEventTime_fallback.2 (1/4) 0 (1/2) 5 false [] 0 (by decide)⟩

/-! ### Claim theorems: C7 -/

theorem excitation_term_nonneg (h : HawkesParams) (hb : 0 < h.bpm)
    (he : 0 ≤ h.excitation) (t e : ℝ) :
    0 ≤ h.excitation * hBarsPerSecond h *
      Real.exp (-(h.decay * hBarsPerSecond h) * (t - e)) := by
  have hbps : 0 < hBarsPerSecond h := by
    unfold hBarsPerSecond
    positivity
  positivity

theorem rhythmBoost_nonneg (h : HawkesParams) (hb : 0 < h.bpm) (t : ℝ) :
    0 ≤ rhythmBoost h t := by
  apply List.sum_nonneg
  intro x hx
  simp only [List.mem_map] at hx
  obtain ⟨o, _, rfl⟩ := hx
  split
  · positivity
  · exact le_rfl

theorem rhythmBoost_eq_zero (h : HawkesParams) (t t1 : ℝ) (ht : t1 ≤ t)
    (hwin : ∀ o ∈ h.rhythmOnsets, o ≤ t1 ∨ t + hSixteenthSeconds h * 2 ≤ o) :
    rhythmBoost h t = 0 := by
  apply List.sum_eq_zero
  intro x hx
  simp only [List.mem_map] at hx
  obtain ⟨o, ho, rfl⟩ := hx
  rw [if_neg]
  rintro ⟨h1, h2⟩
  rcases hwin o ho with hlt | hge
  · linarith
  · linarith

theorem excitation_filter_mono (h : HawkesParams) (t1 t2 : ℝ) (hb : 0 < h.bpm)
    (he : 0 ≤ h.excitation) (hd : 0 ≤ h.decay) (ht : t1 ≤ t2) (l : List ℝ)
    (hev : ∀ e ∈ l, e ≤ t1) :
    ((l.filter (fun e => decide (t2 - 1 / hBarsPerSecond h < e))).map (fun e =>
        h.excitation * hBarsPerSecond h *
          Real.exp (-(h.decay * hBarsPerSecond h) * (t2 - e)))).sum ≤
    ((l.filter (fun e => decide (t1 - 1 / hBarsPerSecond h < e))).map (fun e =>
        h.excitation * hBarsPerSecond h *
          Real.exp (-(h.decay * hBarsPerSecond h) * (t1 - e)))).sum := by
  have hbps : 0 < hBarsPerSecond h := by
    unfold hBarsPerSecond
    positivity
  induction l with
  | nil => simp
  | cons e es ih =>
    have hih := ih (fun x hx => hev x (List.mem_cons_of_mem _ hx))
    have he1 : e ≤ t1 := hev e (List.mem_cons_self _ _)
    by_cases h1 : t1 - 1 / hBarsPerSecond h < e
    · have hk1 : (e :: es).filter (fun x => decide (t1 - 1 / hBarsPerSecond h < x))
          = e :: es.filter (fun x => decide (t1 - 1 / hBarsPerSecond h < x)) := by
        rw [List.filter_cons, decide_eq_true h1]
        simp
      by_cases h2 : t2 - 1 / hBarsPerSecond h < e
      · have hk2 : (e :: es).filter (fun x => decide (t2 - 1 / hBarsPerSecond h < x))
            = e :: es.filter (fun x => decide (t2 - 1 / hBarsPerSecond h < x)) := by
          rw [List.filter_cons, decide_eq_true h2]
          simp
        rw [hk1, hk2, List.map_cons, List.map_cons, List.sum_cons, List.sum_cons]
        have hterm : h.excitation * hBarsPerSecond h *
            Real.exp (-(h.decay * hBarsPerSecond h) * (t2 - e)) ≤
            h.excitation * hBarsPerSecond h *
            Real.exp (-(h.decay * hBarsPerSecond h) * (t1 - e)) := by
          apply mul_le_mul_of_nonneg_left _ (by positivity)
          apply Real.exp_le_exp.mpr
          have : h.decay * hBarsPerSecond h * (t1 - e)
              ≤ h.decay * hBarsPerSecond h * (t2 - e) := by
            apply mul_le_mul_of_nonneg_left (by linarith) (by positivity)
          linarith
        exact add_le_add hterm hih
      · have hk2 : (e :: es).filter (fun x => decide (t2 - 1 / hBarsPerSecond h < x))
            = es.filter (fun x => decide (t2 - 1 / hBarsPerSecond h < x)) := by
          rw [List.filter_cons, decide_eq_false h2]
          simp
        rw [hk1, hk2, List.map_cons, List.sum_cons]
        have := excitation_term_nonneg h hb he t1 e
        linarith
    · have h2 : ¬ (t2 - 1 / hBarsPerSecond h < e) := by linarith
      have hk1 : (e :: es).filter (fun x => decide (t1 - 1 / hBarsPerSecond h < x))
          = es.filter (fun x => decide (t1 - 1 / hBarsPerSecond h < x)) := by
        rw [List.filter_cons, decide_eq_false h1]
        simp
      have hk2 : (e :: es).filter (fun x => decide (t2 - 1 / hBarsPerSecond h < x))
          = es.filter (fun x => decide (t2 - 1 / hBarsPerSecond h < x)) := by
        rw [List.filter_cons, decide_eq_false h2]
        simp
      rw [hk1, hk2]
      exact hih

theorem excitationSum_mono (h : HawkesParams) (t1 t2 : ℝ) (hb : 0 < h.bpm)
    (he : 0 ≤ h.excitation) (hd : 0 ≤ h.decay) (ht : t1 ≤ t2)
    (hev : ∀ e ∈ h.eventTimes, e ≤ t1) :
    excitationSum h t2 ≤ excitationSum h t1 :=
  excitation_filter_mono h t1 t2 hb he hd ht h.eventTimes hev

/-- C7: the Hawkes intensity is always at least the base rate converted from
per-bar to per-second by the current tempo; and between two consecutive
emitted events (all history at or before `t1`), in the absence of any
rhythm-boost window, it is monotonically non-increasing. -/
theorem hawkesIntensity_props :
    (∀ (h : HawkesParams) (t : ℝ), 0 < h.bpm → 0 ≤ h.excitation →
        h.baseRate * hBarsPerSecond h ≤ calculateHawkesIntensity h t) ∧
    (∀ (h : HawkesParams) (t1 t2 : ℝ), 0 < h.bpm → 0 ≤ h.excitation →
        0 ≤ h.decay → t1 ≤ t2 →
        (∀ e ∈ h.eventTimes, e ≤ t1) →
        (∀ o ∈ h.rhythmOnsets, o ≤ t1 ∨ t2 + hSixteenthSeconds h * 2 ≤ o) →
        calculateHawkesIntensity h t2 ≤ calculateHawkesIntensity h t1) := by
  constructor
  · intro h t hb he
    unfold calculateHawkesIntensity
    have h1 : 0 ≤ excitationSum h t := by
      apply List.sum_nonneg
      intro x hx
      simp only [List.mem_map] at hx
      obtain ⟨e, _, rfl⟩ := hx
      exact excitation_term_nonneg h hb he t e
    have h2 : 0 ≤ rhythmBoost h t := rhythmBoost_nonneg h hb t
    linarith
  · intro h t1 t2 hb he hd ht hev hwin
    unfold calculateHawkesIntensity
    have hz2 : rhythmBoost h t2 = 0 := by
      apply rhythmBoost_eq_zero h t2 t1 ht
      intro o ho
      rcases hwin o ho with h1 | h2
      · exact Or.inl h1
      · exact Or.inr h2
    have hz1 : rhythmBoost h t1 = 0 := by
      apply rhythmBoost_eq_zero h t1 t1 le_rfl
      intro o ho
      rcases hwin o ho with h1 | h2
      · exact Or.inl h1
      · refine Or.inr ?_
        have h16 : 0 < hSixteenthSeconds h := by
          unfold hSixteenthSeconds
          positivity
        linarith
    have := excitationSum_mono h t1 t2 hb he hd ht hev
    rw [hz1, hz2]
    linarith

/-- C7 witness: instantiation at 60 BPM, base rate 8, excitation 1,
decay 5, one event at time 0, no rhythm onsets, `t1 = 1 ≤ t2 = 2`. -/
theorem hawkesIntensity_props_witness :
    ((⟨60, 8, 1, 5, [0], []⟩ : HawkesParams).baseRate
        * hBarsPerSecond ⟨60, 8, 1, 5, [0], []⟩
      ≤ calculateHawkesIntensity ⟨60, 8, 1, 5, [0], []⟩ 1) ∧
    (calculateHawkesIntensity ⟨60, 8, 1, 5, [0], []⟩ 2
      ≤ calculateHawkesIntensity ⟨60, 8, 1, 5, [0], []⟩ 1) :=
  ⟨hawkesIntensity_props.1 ⟨60, 8, 1, 5, [0], []⟩ 1 (by norm_num) (by norm_num),
   hawkesIntensity_props.2 ⟨60, 8, 1, 5, [0], []⟩ 1 2 (by norm_num) (by norm_num)
     (by norm_num) (by norm_num)
     (by intro e he; simp at he; simp [he])
     (by intro o ho; simp at ho)⟩

end Musicbox
